import Mathlib

/-!
Verification development for the ECOSEigen SOCP solver (src/src/ecos.cpp,
src/include/ecos.hpp).  Floating-point doubles are modelled as exact
rationals where the code performs only field operations and comparisons,
and as real numbers where square roots and Euclidean norms occur.
Conic vectors in `R^m` with layout `R+^l x SOC(q1) x ... x SOC(qn)` are
modelled block-wise: the nonnegative-orthant entries as a list and each
second-order-cone block as a pair of its head entry and its tail list,
mirroring the segment-wise loops of the source.
-/

namespace ECOS

/-- Solver settings with the default values of ecos.hpp (`struct Settings`). -/
structure Settings where
  gamma : ℚ := 99 / 100
  deltastat : ℚ := 2 / 10 ^ 7
  eps : ℚ := 10 ^ 13
  feastol : ℚ := 1 / 10 ^ 8
  abstol : ℚ := 1 / 10 ^ 8
  reltol : ℚ := 1 / 10 ^ 8
  feastol_inacc : ℚ := 1 / 10 ^ 4
  abstol_inacc : ℚ := 5 / 10 ^ 5
  reltol_inacc : ℚ := 5 / 10 ^ 5
  nitref : ℕ := 9
  maxit : ℕ := 100
  linsysacc : ℚ := 1 / 10 ^ 14
  irerrfact : ℚ := 6
  stepmin : ℚ := 1 / 10 ^ 6
  stepmax : ℚ := 999 / 1000
  sigmamin : ℚ := 1 / 10 ^ 4
  sigmamax : ℚ := 1
  equil_iters : ℕ := 3

/-- The default settings instance used by the solver. -/
def settings : Settings := {}

section ListAlgebra

variable {α : Type} [LinearOrderedCommRing α]

/-- Dot product of two lists (`Eigen .dot`), truncating at the shorter one. -/
def dot : List α → List α → α
  | x :: xs, y :: ys => x * y + dot xs ys
  | _, _ => 0

/-- Sum of squares of a list (`Eigen .squaredNorm`). -/
def sumsq (xs : List α) : α := dot xs xs

/-- Elementwise sum of two lists. -/
def lAdd (xs ys : List α) : List α := List.zipWith (· + ·) xs ys

/-- Scalar multiple of a list. -/
def lSMul (c : α) (xs : List α) : List α := xs.map (c * ·)

@[simp] theorem dot_nil_left (ys : List α) : dot ([] : List α) ys = 0 := by
  cases ys <;> rfl

@[simp] theorem dot_nil_right (xs : List α) : dot xs ([] : List α) = 0 := by
  cases xs <;> rfl

@[simp] theorem dot_cons (x : α) (xs : List α) (y : α) (ys : List α) :
    dot (x :: xs) (y :: ys) = x * y + dot xs ys := rfl

theorem dot_comm (xs ys : List α) : dot xs ys = dot ys xs := by
  induction xs generalizing ys with
  | nil => cases ys <;> simp
  | cons x xs ih =>
    cases ys with
    | nil => simp
    | cons y ys => simp [ih, mul_comm]

@[simp] theorem lAdd_nil_left (ys : List α) : lAdd ([] : List α) ys = [] := rfl

@[simp] theorem lAdd_nil_right (xs : List α) : lAdd xs ([] : List α) = [] := by
  cases xs <;> rfl

@[simp] theorem lAdd_cons (x : α) (xs : List α) (y : α) (ys : List α) :
    lAdd (x :: xs) (y :: ys) = (x + y) :: lAdd xs ys := rfl

@[simp] theorem lSMul_nil (c : α) : lSMul c ([] : List α) = [] := rfl

@[simp] theorem lSMul_cons (c x : α) (xs : List α) :
    lSMul c (x :: xs) = c * x :: lSMul c xs := rfl

@[simp] theorem lSMul_length (c : α) (xs : List α) :
    (lSMul c xs).length = xs.length := by
  simp [lSMul]

theorem lAdd_length (xs ys : List α) :
    (lAdd xs ys).length = min xs.length ys.length := by
  simp [lAdd]

theorem dot_lSMul_right (c : α) (xs ys : List α) :
    dot xs (lSMul c ys) = c * dot xs ys := by
  induction xs generalizing ys with
  | nil => simp
  | cons x xs ih =>
    cases ys with
    | nil => simp
    | cons y ys => simp [ih]; ring

theorem dot_lSMul_left (c : α) (xs ys : List α) :
    dot (lSMul c xs) ys = c * dot xs ys := by
  rw [dot_comm, dot_lSMul_right, dot_comm]

theorem dot_lAdd_right (xs ys zs : List α) (h : ys.length = zs.length) :
    dot xs (lAdd ys zs) = dot xs ys + dot xs zs := by
  induction xs generalizing ys zs with
  | nil => simp
  | cons x xs ih =>
    cases ys with
    | nil =>
      have : zs = [] := by
        cases zs with
        | nil => rfl
        | cons z zs => simp at h
      simp [this]
    | cons y ys =>
      cases zs with
      | nil => simp at h
      | cons z zs =>
        simp only [lAdd_cons, dot_cons]
        rw [ih ys zs (by simpa using h)]
        ring

theorem dot_lAdd_left (xs ys zs : List α) (h : xs.length = ys.length) :
    dot (lAdd xs ys) zs = dot xs zs + dot ys zs := by
  rw [dot_comm, dot_lAdd_right zs xs ys h, dot_comm xs zs, dot_comm ys zs]

theorem lSMul_lSMul (c d : α) (xs : List α) :
    lSMul c (lSMul d xs) = lSMul (c * d) xs := by
  induction xs with
  | nil => rfl
  | cons x xs ih => simp [ih]; ring

theorem lSMul_one (xs : List α) : lSMul 1 xs = xs := by
  induction xs with
  | nil => rfl
  | cons x xs ih => simp [ih]

theorem lSMul_lAdd (c : α) (xs ys : List α) :
    lSMul c (lAdd xs ys) = lAdd (lSMul c xs) (lSMul c ys) := by
  induction xs generalizing ys with
  | nil => rfl
  | cons x xs ih =>
    cases ys with
    | nil => rfl
    | cons y ys => simp [ih]; ring

theorem lAdd_comm (xs ys : List α) : lAdd xs ys = lAdd ys xs := by
  induction xs generalizing ys with
  | nil => simp
  | cons x xs ih =>
    cases ys with
    | nil => simp
    | cons y ys => simp [ih]; ring

theorem lAdd_assoc (xs ys zs : List α) :
    lAdd (lAdd xs ys) zs = lAdd xs (lAdd ys zs) := by
  induction xs generalizing ys zs with
  | nil => simp
  | cons x xs ih =>
    cases ys with
    | nil => simp
    | cons y ys =>
      cases zs with
      | nil => simp
      | cons z zs => simp [ih]; ring

theorem lAdd_lSMul_same (c d : α) (xs : List α) :
    lAdd (lSMul c xs) (lSMul d xs) = lSMul (c + d) xs := by
  induction xs with
  | nil => rfl
  | cons x xs ih => simp [ih]; ring

theorem lAdd_lSMul_zero (xs ys : List α) (h : xs.length = ys.length) :
    lAdd xs (lSMul 0 ys) = xs := by
  induction xs generalizing ys with
  | nil => rfl
  | cons x xs ih =>
    cases ys with
    | nil => simp at h
    | cons y ys =>
      simp only [lSMul_cons, lAdd_cons, mul_zero, zero_mul, add_zero]
      rw [ih ys (by simpa using h)]

/-- Elementwise difference of two lists. -/
def lSub (xs ys : List α) : List α := List.zipWith (· - ·) xs ys

@[simp] theorem lSub_nil_left (ys : List α) : lSub ([] : List α) ys = [] := rfl

@[simp] theorem lSub_nil_right (xs : List α) : lSub xs ([] : List α) = [] := by
  cases xs <;> rfl

@[simp] theorem lSub_cons (x : α) (xs : List α) (y : α) (ys : List α) :
    lSub (x :: xs) (y :: ys) = (x - y) :: lSub xs ys := rfl

theorem lSub_eq_lAdd_neg (xs ys : List α) :
    lSub xs ys = lAdd xs (lSMul (-1) ys) := by
  induction xs generalizing ys with
  | nil => simp
  | cons x xs ih =>
    cases ys with
    | nil => simp
    | cons y ys => simp [ih]; ring

theorem lAdd_lSub_cancel (xs ys : List α) (h : xs.length = ys.length) :
    lAdd xs (lSub ys xs) = ys := by
  induction xs generalizing ys with
  | nil =>
    cases ys with
    | nil => rfl
    | cons y ys => simp at h
  | cons x xs ih =>
    cases ys with
    | nil => simp at h
    | cons y ys =>
      simp only [lSub_cons, lAdd_cons]
      rw [ih ys (by simpa using h)]
      congr 1
      ring

theorem sumsq_nonneg (xs : List α) : 0 ≤ sumsq xs := by
  induction xs with
  | nil => simp [sumsq]
  | cons x xs ih =>
    simp only [sumsq, dot_cons] at *
    nlinarith [sq_nonneg x]

theorem sumsq_cons (x : α) (xs : List α) : sumsq (x :: xs) = x * x + sumsq xs := rfl

/-- Cauchy-Schwarz inequality for list dot products. -/
theorem dot_sq_le_sumsq_mul_sumsq (xs ys : List α) :
    dot xs ys ^ 2 ≤ sumsq xs * sumsq ys := by
  induction xs generalizing ys with
  | nil => simp [sumsq]
  | cons x xs ih =>
    cases ys with
    | nil => simp [sumsq]
    | cons y ys =>
      have h1 := ih ys
      have h2 := sumsq_nonneg xs
      have h3 := sumsq_nonneg ys
      simp only [dot_cons, sumsq_cons, sumsq] at *
      rcases lt_or_eq_of_le h3 with hsy | hsy
      · nlinarith [sq_nonneg (x * dot ys ys - y * dot xs ys), h1, h2, hsy,
          mul_nonneg (sq_nonneg y) (sub_nonneg.2 h1),
          mul_nonneg (le_of_lt hsy) (sub_nonneg.2 h1)]
      · have hd : dot xs ys = 0 := by nlinarith [sq_nonneg (dot xs ys)]
        rw [hd, ← hsy]
        nlinarith [mul_nonneg h2 (sq_nonneg y)]

theorem sumsq_lAdd (xs ys : List α) (h : xs.length = ys.length) :
    sumsq (lAdd xs ys) = sumsq xs + 2 * dot xs ys + sumsq ys := by
  show dot (lAdd xs ys) (lAdd xs ys) = _
  rw [dot_lAdd_left _ _ _ h, dot_lAdd_right _ _ _ h, dot_lAdd_right _ _ _ h,
    dot_comm ys xs]
  show sumsq xs + dot xs ys + (dot xs ys + sumsq ys) = _
  ring

theorem sumsq_lSMul (c : α) (xs : List α) :
    sumsq (lSMul c xs) = c ^ 2 * sumsq xs := by
  show dot (lSMul c xs) (lSMul c xs) = _
  rw [dot_lSMul_left, dot_lSMul_right]
  show c * (c * sumsq xs) = _
  ring

end ListAlgebra

section FieldLists

variable {α : Type} [LinearOrderedField α]

theorem map_div_eq_lSMul (c : α) (xs : List α) :
    xs.map (fun x => x / c) = lSMul (1 / c) xs := by
  induction xs with
  | nil => rfl
  | cons x xs ih => simp [ih]; ring

theorem lSMul_map_div_cancel (c : α) (hc : c ≠ 0) (xs : List α) :
    lSMul c (xs.map (fun x => x / c)) = xs := by
  rw [map_div_eq_lSMul, lSMul_lSMul, mul_one_div, div_self hc, lSMul_one]

theorem sumsq_map_div (c : α) (xs : List α) :
    sumsq (xs.map (fun x => x / c)) = sumsq xs / c ^ 2 := by
  rw [map_div_eq_lSMul, sumsq_lSMul, div_pow, one_pow, one_div, inv_mul_eq_div]

theorem dot_map_div_left (c : α) (xs ys : List α) :
    dot (xs.map (fun x => x / c)) ys = dot xs ys / c := by
  rw [map_div_eq_lSMul, dot_lSMul_left]
  ring

end FieldLists

section BlockOps

variable {α : Type} [LinearOrderedField α]

/-- Sum of two SOC blocks. -/
def bAdd (u v : α × List α) : α × List α := (u.1 + v.1, lAdd u.2 v.2)

/-- Scalar multiple of a SOC block. -/
def bSMul (c : α) (u : α × List α) : α × List α := (c * u.1, lSMul c u.2)

/-- Dot product of two SOC blocks (full segment, head included). -/
def bdot (u v : α × List α) : α := u.1 * v.1 + dot u.2 v.2

/-- A SOC block divided by a scalar, entrywise. -/
def bdiv (u : α × List α) (c : α) : α × List α :=
  (u.1 / c, u.2.map (fun x => x / c))

/-- The SOC residual `u0^2 - ||u1||^2` of a block. -/
def socRes (u : α × List α) : α := u.1 * u.1 - sumsq u.2

/-- Interior of a single SOC block. -/
def blkInt (u : α × List α) : Prop := 0 < u.1 ∧ sumsq u.2 < u.1 ^ 2

theorem socRes_bSMul (c : α) (u : α × List α) :
    socRes (bSMul c u) = c ^ 2 * socRes u := by
  simp only [socRes, bSMul, sumsq_lSMul]
  ring

theorem socRes_bdiv (c : α) (u : α × List α) :
    socRes (bdiv u c) = socRes u / c ^ 2 := by
  simp only [socRes, bdiv, sumsq_map_div]
  field_simp
  ring

theorem blkInt_iff_res (u : α × List α) :
    blkInt u ↔ 0 < u.1 ∧ 0 < socRes u := by
  constructor
  · intro ⟨h1, h2⟩
    exact ⟨h1, by simp only [socRes]; nlinarith⟩
  · intro ⟨h1, h2⟩
    simp only [socRes] at h2
    exact ⟨h1, by nlinarith⟩

theorem bSMul_int (c : α) (hc : 0 < c) (u : α × List α) (hu : blkInt u) :
    blkInt (bSMul c u) := by
  rw [blkInt_iff_res] at *
  refine ⟨by simpa [bSMul] using mul_pos hc hu.1, ?_⟩
  rw [socRes_bSMul]
  exact mul_pos (by positivity) hu.2

theorem bSMul_bdiv_cancel (c : α) (hc : c ≠ 0) (u : α × List α) :
    bSMul c (bdiv u c) = u := by
  obtain ⟨u0, u1⟩ := u
  simp only [bSMul, bdiv, lSMul_map_div_cancel c hc]
  rw [mul_div_cancel₀ _ hc]

theorem bdiv_len (u : α × List α) (c : α) : (bdiv u c).2.length = u.2.length := by
  simp [bdiv]

end BlockOps

section Lorentz

variable {α : Type} [LinearOrderedField α]

/-- The arrow-form hyperbolic rotation with point `(p0, p1)` (intended with
`sumsq p1 = p0^2 - 1`): the common shape of the fast NT scaling multiply
`ECOSEigen::scale` and of the `rho`/`sigma` construction inside
`ECOSEigen::lineSearch`. -/
def lorentzApply (p0 : α) (p1 : List α) (x : α × List α) : α × List α :=
  let zeta := dot p1 x.2
  let factor := x.1 + zeta / (1 + p0)
  (p0 * x.1 + zeta, lAdd x.2 (lSMul factor p1))

theorem lorentzApply_res (p0 : α) (p1 : List α) (x : α × List α)
    (hunit : sumsq p1 = p0 ^ 2 - 1) (hp : 1 + p0 ≠ 0)
    (hlen : x.2.length = p1.length) :
    socRes (lorentzApply p0 p1 x) = socRes x := by
  obtain ⟨x0, x1⟩ := x
  simp only [lorentzApply, socRes] at *
  rw [sumsq_lAdd x1 _ (by simpa using hlen), dot_lSMul_right, sumsq_lSMul,
    hunit, dot_comm x1 p1]
  field_simp
  ring

theorem lorentzApply_head_pos (p0 : α) (p1 : List α) (x : α × List α)
    (hunit : sumsq p1 = p0 ^ 2 - 1) (hp0 : 0 < p0)
    (hx : blkInt x) :
    0 < (lorentzApply p0 p1 x).1 := by
  obtain ⟨hx0, hxres⟩ := hx
  have hcs := dot_sq_le_sumsq_mul_sumsq p1 x.2
  rw [hunit] at hcs
  have hs2 := sumsq_nonneg x.2
  have hp1 : 0 ≤ p0 ^ 2 - 1 := hunit ▸ sumsq_nonneg p1
  show 0 < p0 * x.1 + dot p1 x.2
  by_contra hcon
  push_neg at hcon
  have ht : dot p1 x.2 ≤ -(p0 * x.1) := by linarith
  have hpx : 0 < p0 * x.1 := mul_pos hp0 hx0
  have ht2 : (p0 * x.1) ^ 2 ≤ dot p1 x.2 ^ 2 := by
    nlinarith [mul_nonneg (by linarith : (0:α) ≤ -(dot p1 x.2) - p0 * x.1)
      (by linarith : (0:α) ≤ -(dot p1 x.2) + p0 * x.1)]
  have h3 : (p0 ^ 2 - 1) * sumsq x.2 ≤ (p0 ^ 2 - 1) * x.1 ^ 2 :=
    mul_le_mul_of_nonneg_left (le_of_lt hxres) hp1
  nlinarith [mul_pos hx0 hx0, sq_nonneg x.1, mul_pos hp0 hp0]

theorem lorentzApply_int (p0 : α) (p1 : List α) (x : α × List α)
    (hunit : sumsq p1 = p0 ^ 2 - 1) (hp0 : 0 < p0)
    (hlen : x.2.length = p1.length) (hx : blkInt x) :
    blkInt (lorentzApply p0 p1 x) := by
  have hp : 1 + p0 ≠ 0 := by positivity
  rw [blkInt_iff_res]
  refine ⟨lorentzApply_head_pos p0 p1 x hunit hp0 hx, ?_⟩
  rw [lorentzApply_res p0 p1 x hunit hp hlen]
  exact ((blkInt_iff_res x).1 hx).2

theorem lorentzApply_inverse (p0 : α) (p1 : List α) (x : α × List α)
    (hunit : sumsq p1 = p0 ^ 2 - 1) (hp : 1 + p0 ≠ 0)
    (hlen : x.2.length = p1.length) :
    lorentzApply p0 p1 (lorentzApply p0 (lSMul (-1) p1) x) = x := by
  obtain ⟨x0, x1⟩ := x
  have hpp : dot p1 p1 = p0 ^ 2 - 1 := hunit
  simp only [lorentzApply, dot_lSMul_left, lSMul_lSMul]
  rw [dot_lAdd_right p1 x1 _ (by simp [hlen] : x1.length = _), dot_lSMul_right, hpp,
    Prod.mk.injEq]
  refine ⟨by field_simp; ring, ?_⟩
  rw [lAdd_assoc, lAdd_lSMul_same]
  have := lAdd_lSMul_zero x1 p1 hlen
  convert this using 3
  field_simp
  ring

theorem lorentzApply_smul (p0 : α) (p1 : List α) (c : α) (x : α × List α) :
    lorentzApply p0 p1 (bSMul c x) = bSMul c (lorentzApply p0 p1 x) := by
  obtain ⟨x0, x1⟩ := x
  simp only [lorentzApply, bSMul, dot_lSMul_right]
  refine Prod.ext (by show p0 * (c * x0) + c * dot p1 x1 = c * (p0 * x0 + dot p1 x1); ring) ?_
  show lAdd (lSMul c x1) (lSMul (c * x0 + c * dot p1 x1 / (1 + p0)) p1) =
    lSMul c (lAdd x1 (lSMul (x0 + dot p1 x1 / (1 + p0)) p1))
  rw [lSMul_lAdd, lSMul_lSMul]
  congr 2
  ring

theorem lorentzApply_add (p0 : α) (p1 : List α) (x y : α × List α)
    (hlen : x.2.length = y.2.length) :
    lorentzApply p0 p1 (bAdd x y) =
      bAdd (lorentzApply p0 p1 x) (lorentzApply p0 p1 y) := by
  obtain ⟨x0, x1⟩ := x
  obtain ⟨y0, y1⟩ := y
  simp only [lorentzApply, bAdd] at *
  rw [dot_lAdd_right p1 x1 y1 hlen]
  refine Prod.ext (by show p0 * (x0 + y0) + _ = _; ring) ?_
  show lAdd (lAdd x1 y1) (lSMul (x0 + y0 + (dot p1 x1 + dot p1 y1) / (1 + p0)) p1) =
    lAdd (lAdd x1 (lSMul (x0 + dot p1 x1 / (1 + p0)) p1))
      (lAdd y1 (lSMul (y0 + dot p1 y1 / (1 + p0)) p1))
  have hsplit : (x0 + y0 + (dot p1 x1 + dot p1 y1) / (1 + p0)) =
      (x0 + dot p1 x1 / (1 + p0)) + (y0 + dot p1 y1 / (1 + p0)) := by ring
  rw [hsplit, ← lAdd_lSMul_same]
  rw [show lAdd (lAdd x1 y1) (lAdd (lSMul (x0 + dot p1 x1 / (1 + p0)) p1)
      (lSMul (y0 + dot p1 y1 / (1 + p0)) p1)) =
    lAdd x1 (lAdd y1 (lAdd (lSMul (x0 + dot p1 x1 / (1 + p0)) p1)
      (lSMul (y0 + dot p1 y1 / (1 + p0)) p1))) from lAdd_assoc ..]
  rw [lAdd_assoc]
  congr 1
  rw [← lAdd_assoc, lAdd_comm y1 (lSMul (x0 + dot p1 x1 / (1 + p0)) p1), lAdd_assoc]

theorem lAdd_lSMul_zero_left (xs ys : List α) (h : xs.length = ys.length) :
    lAdd (lSMul 0 ys) xs = xs := by
  rw [lAdd_comm, lAdd_lSMul_zero xs ys h]

theorem lorentzApply_unit (p0 : α) (p1 : List α) (t : List α)
    (hlen : t.length = p1.length) :
    lorentzApply p0 p1 (1, lSMul 0 t) = (p0, p1) := by
  simp only [lorentzApply, dot_lSMul_right, mul_zero, zero_div, add_zero,
    mul_one]
  refine Prod.ext (by simp) ?_
  show lAdd (lSMul 0 t) (lSMul (1 + 0 * dot p1 t / (1 + p0)) p1) = p1
  rw [show (1 + 0 * dot p1 t / (1 + p0)) = 1 by ring, lSMul_one]
  exact lAdd_lSMul_zero_left p1 t hlen.symm

end Lorentz

section MoreAlgebra

variable {α : Type} [LinearOrderedField α]

theorem dot_lSub_left (xs ys zs : List α) (h : xs.length = ys.length) :
    dot (lSub xs ys) zs = dot xs zs - dot ys zs := by
  rw [lSub_eq_lAdd_neg, dot_lAdd_left xs (lSMul (-1) ys) zs (by simp [h]),
    dot_lSMul_left]
  ring

theorem dot_lSub_right (xs ys zs : List α) (h : ys.length = zs.length) :
    dot xs (lSub ys zs) = dot xs ys - dot xs zs := by
  rw [dot_comm, dot_lSub_left ys zs xs h, dot_comm ys xs, dot_comm zs xs]

theorem sumsq_lSub (xs ys : List α) (h : xs.length = ys.length) :
    sumsq (lSub xs ys) = sumsq xs - 2 * dot xs ys + sumsq ys := by
  rw [lSub_eq_lAdd_neg, sumsq_lAdd xs _ (by simp [h]), dot_lSMul_right,
    sumsq_lSMul]
  ring

theorem bSMul_bSMul (c d : α) (u : α × List α) :
    bSMul c (bSMul d u) = bSMul (c * d) u := by
  simp only [bSMul, lSMul_lSMul]
  rw [mul_assoc]

theorem bSMul_one (u : α × List α) : bSMul 1 u = u := by
  simp only [bSMul, lSMul_one, one_mul]

theorem bSMul_bAdd (c : α) (u v : α × List α) :
    bSMul c (bAdd u v) = bAdd (bSMul c u) (bSMul c v) := by
  simp only [bSMul, bAdd, lSMul_lAdd]
  rw [mul_add]

@[simp] theorem bSMul_len (c : α) (u : α × List α) :
    (bSMul c u).2.length = u.2.length := by
  simp [bSMul]

theorem lSub_length (xs ys : List α) :
    (lSub xs ys).length = min xs.length ys.length := by
  simp [lSub]

end MoreAlgebra

section ConeVec

variable {α : Type} [LinearOrderedField α]

/-- A conic vector: the nonnegative-orthant entries followed by the
second-order-cone blocks, each block stored as head entry plus tail list. -/
structure CVec (α : Type) where
  lp : List α
  socs : List (α × List α)

/-- The block layout of a conic vector: LP dimension and SOC tail lengths. -/
def shapeOf (u : CVec α) : ℕ × List ℕ :=
  (u.lp.length, u.socs.map (fun b => b.2.length))

/-- Membership in the interior of the cone K: positive orthant entries are
positive and each SOC block satisfies `u0 > 0` and `u0^2 > ||u1||^2`. -/
def interiorK (u : CVec α) : Prop :=
  (∀ x ∈ u.lp, 0 < x) ∧ ∀ b ∈ u.socs, 0 < b.1 ∧ sumsq b.2 < b.1 ^ 2

/-- One SOC block of the conic product (ecos.cpp `conicProduct`, SOC loop):
`w0 = u . v` over the whole block, `w1 = u0 v1 + v0 u1`. -/
def socProd (u v : α × List α) : α × List α :=
  (u.1 * v.1 + dot u.2 v.2, lAdd (lSMul u.1 v.2) (lSMul v.1 u.2))

/-- Conic product `w = u o v` (ecos.cpp `ECOSEigen::conicProduct`), returning
the product and the accumulated value `mu` (the 1-norm of the LP part plus
the absolute heads of the SOC parts) that the source returns. -/
def conicProduct (u v : CVec α) : CVec α × α :=
  let wlp := List.zipWith (· * ·) u.lp v.lp
  let ws := List.zipWith socProd u.socs v.socs
  (⟨wlp, ws⟩, (wlp.map (fun x => |x|)).sum + (ws.map (fun b => |b.1|)).sum)

/-- One SOC block of the conic division (ecos.cpp `conicDivision`, SOC loop). -/
def socDiv (u w : α × List α) : α × List α :=
  let u0 := u.1
  let w0 := w.1
  let rho := u0 * u0 - sumsq u.2
  let zeta := dot u.2 w.2
  let factor := (zeta / u0 - w0) / rho
  ((u0 * w0 - zeta) / rho, lAdd (lSMul factor u.2) (lSMul (1 / u0) w.2))

/-- Conic division `v = u \ w` (ecos.cpp `ECOSEigen::conicDivision`). -/
def conicDivision (u w : CVec α) : CVec α :=
  ⟨List.zipWith (· / ·) w.lp u.lp, List.zipWith socDiv u.socs w.socs⟩

theorem socDiv_socProd (u v : α × List α) (hlen : u.2.length = v.2.length)
    (hu0 : u.1 ≠ 0) (hrho : u.1 * u.1 - sumsq u.2 ≠ 0) :
    socDiv u (socProd u v) = v := by
  obtain ⟨u0, u1⟩ := u
  obtain ⟨v0, v1⟩ := v
  simp only [socProd, socDiv] at *
  have hzeta : dot u1 (lAdd (lSMul u0 v1) (lSMul v0 u1)) =
      u0 * dot u1 v1 + v0 * sumsq u1 := by
    rw [dot_lAdd_right _ _ _ (by simp [hlen]), dot_lSMul_right, dot_lSMul_right]
    rfl
  have hfac : (dot u1 (lAdd (lSMul u0 v1) (lSMul v0 u1)) / u0 -
      (u0 * v0 + dot u1 v1)) / (u0 * u0 - sumsq u1) = -(v0 / u0) := by
    rw [hzeta]
    field_simp
    ring
  refine Prod.ext ?_ ?_
  · show (u0 * (u0 * v0 + dot u1 v1) - dot u1 (lAdd (lSMul u0 v1) (lSMul v0 u1))) /
        (u0 * u0 - sumsq u1) = v0
    rw [hzeta]
    field_simp
    ring
  · show lAdd (lSMul _ u1) (lSMul (1 / u0) (lAdd (lSMul u0 v1) (lSMul v0 u1))) = v1
    rw [hfac, lSMul_lAdd, lSMul_lSMul, lSMul_lSMul]
    have h1 : (1 / u0) * u0 = 1 := by field_simp
    have h2 : lAdd (lSMul (-(v0 / u0)) u1) (lAdd (lSMul ((1 / u0) * u0) v1)
        (lSMul ((1 / u0) * v0) u1)) = lAdd (lSMul 1 v1)
        (lAdd (lSMul (-(v0 / u0)) u1) (lSMul ((1 / u0) * v0) u1)) := by
      rw [← lAdd_assoc, lAdd_comm (lSMul (-(v0 / u0)) u1), lAdd_assoc, h1]
    rw [h2, lAdd_lSMul_same, lSMul_one]
    have h3 : -(v0 / u0) + (1 / u0) * v0 = 0 := by field_simp
    rw [h3, lAdd_lSMul_zero v1 u1 hlen.symm]

theorem socProd_socDiv (u w : α × List α) (hlen : u.2.length = w.2.length)
    (hu0 : u.1 ≠ 0) (hrho : u.1 * u.1 - sumsq u.2 ≠ 0) :
    socProd u (socDiv u w) = w := by
  obtain ⟨u0, u1⟩ := u
  obtain ⟨w0, w1⟩ := w
  simp only [socProd, socDiv] at *
  set rho := u0 * u0 - sumsq u1 with hrhodef
  set zeta := dot u1 w1 with hzetadef
  set factor := (zeta / u0 - w0) / rho with hfactordef
  refine Prod.ext ?_ ?_
  · show u0 * ((u0 * w0 - zeta) / rho) +
        dot u1 (lAdd (lSMul factor u1) (lSMul (1 / u0) w1)) = w0
    rw [dot_lAdd_right _ _ _ (by simp [hlen]), dot_lSMul_right, dot_lSMul_right,
      ← hzetadef]
    show u0 * ((u0 * w0 - zeta) / rho) + (factor * sumsq u1 + 1 / u0 * zeta) = w0
    rw [hfactordef, hrhodef]
    field_simp
    ring
  · show lAdd (lSMul u0 (lAdd (lSMul factor u1) (lSMul (1 / u0) w1)))
        (lSMul ((u0 * w0 - zeta) / rho) u1) = w1
    rw [lSMul_lAdd, lSMul_lSMul, lSMul_lSMul, lAdd_assoc,
      lAdd_comm (lSMul (u0 * (1 / u0)) w1), ← lAdd_assoc, lAdd_lSMul_same]
    have hco : u0 * factor + (u0 * w0 - zeta) / rho = 0 := by
      rw [hfactordef, hrhodef]
      field_simp
      ring
    have hone : u0 * (1 / u0) = 1 := by field_simp
    rw [hco, hone, lSMul_one, lAdd_comm, lAdd_lSMul_zero w1 u1 hlen.symm]

theorem zipWith_div_mul (us vs : List α) (h : us.length = vs.length)
    (hu : ∀ x ∈ us, x ≠ 0) :
    List.zipWith (· / ·) (List.zipWith (· * ·) us vs) us = vs := by
  induction us generalizing vs with
  | nil =>
    cases vs with
    | nil => rfl
    | cons v vs => simp at h
  | cons u us ih =>
    cases vs with
    | nil => simp at h
    | cons v vs =>
      have hu0 : u ≠ 0 := hu u (by simp)
      simp only [List.zipWith_cons_cons, List.cons.injEq]
      exact ⟨by field_simp, ih vs (by simpa using h)
        (fun x hx => hu x (by simp [hx]))⟩

theorem zipWith_mul_div (us ws : List α) (h : us.length = ws.length)
    (hu : ∀ x ∈ us, x ≠ 0) :
    List.zipWith (· * ·) us (List.zipWith (· / ·) ws us) = ws := by
  induction us generalizing ws with
  | nil =>
    cases ws with
    | nil => rfl
    | cons w ws => simp at h
  | cons u us ih =>
    cases ws with
    | nil => simp at h
    | cons w ws =>
      have hu0 : u ≠ 0 := hu u (by simp)
      simp only [List.zipWith_cons_cons, List.cons.injEq]
      exact ⟨by field_simp, ih ws (by simpa using h)
        (fun x hx => hu x (by simp [hx]))⟩

theorem zipWith_socDiv_socProd (us vs : List (α × List α))
    (h : vs.map (fun b => b.2.length) = us.map (fun b => b.2.length))
    (hint : ∀ b ∈ us, 0 < b.1 ∧ sumsq b.2 < b.1 ^ 2) :
    List.zipWith socDiv us (List.zipWith socProd us vs) = vs := by
  induction us generalizing vs with
  | nil =>
    cases vs with
    | nil => rfl
    | cons v vs => simp at h
  | cons u us ih =>
    cases vs with
    | nil => simp at h
    | cons v vs =>
      obtain ⟨hu0, hres⟩ := hint u (by simp)
      have hrho : u.1 * u.1 - sumsq u.2 ≠ 0 := by nlinarith
      simp only [List.map_cons, List.cons.injEq] at h
      simp only [List.zipWith_cons_cons, List.cons.injEq]
      exact ⟨socDiv_socProd u v h.1.symm (ne_of_gt hu0) hrho, ih vs h.2
        (fun b hb => hint b (by simp [hb]))⟩

theorem zipWith_socProd_socDiv (us ws : List (α × List α))
    (h : ws.map (fun b => b.2.length) = us.map (fun b => b.2.length))
    (hint : ∀ b ∈ us, 0 < b.1 ∧ sumsq b.2 < b.1 ^ 2) :
    List.zipWith socProd us (List.zipWith socDiv us ws) = ws := by
  induction us generalizing ws with
  | nil =>
    cases ws with
    | nil => rfl
    | cons w ws => simp at h
  | cons u us ih =>
    cases ws with
    | nil => simp at h
    | cons w ws =>
      obtain ⟨hu0, hres⟩ := hint u (by simp)
      have hrho : u.1 * u.1 - sumsq u.2 ≠ 0 := by nlinarith
      simp only [List.map_cons, List.cons.injEq] at h
      simp only [List.zipWith_cons_cons, List.cons.injEq]
      exact ⟨socProd_socDiv u w h.1.symm (ne_of_gt hu0) hrho, ih ws h.2
        (fun b hb => hint b (by simp [hb]))⟩

/-- C8: conic product and conic division are mutually inverse on the cone
interior: for `u` interior to `K` and `v`, `w` of matching layout,
`u \ (u o v) = v` and `u o (u \ w) = w`.  In the exact-arithmetic model the
identities hold exactly, hence in particular within the claimed 1e-12
relative tolerance. -/
theorem conicProduct_conicDivision_inverse (u v w : CVec α)
    (hv : shapeOf v = shapeOf u) (hw : shapeOf w = shapeOf u)
    (hu : interiorK u) :
    conicDivision u (conicProduct u v).1 = v ∧
      (conicProduct u (conicDivision u w)).1 = w := by
  obtain ⟨hulp, husoc⟩ := hu
  obtain ⟨hvlp, hvsoc⟩ := Prod.mk.injEq .. ▸ hv
  obtain ⟨hwlp, hwsoc⟩ := Prod.mk.injEq .. ▸ hw
  constructor
  · show CVec.mk _ _ = v
    have h1 : List.zipWith (· / ·) (List.zipWith (· * ·) u.lp v.lp) u.lp = v.lp :=
      zipWith_div_mul u.lp v.lp hvlp.symm (fun x hx => ne_of_gt (hulp x hx))
    have h2 := zipWith_socDiv_socProd u.socs v.socs hvsoc husoc
    cases v
    simp only [conicDivision, conicProduct] at *
    rw [h1, h2]
  · show CVec.mk _ _ = w
    have h1 : List.zipWith (· * ·) u.lp (List.zipWith (· / ·) w.lp u.lp) = w.lp :=
      zipWith_mul_div u.lp w.lp hwlp.symm (fun x hx => ne_of_gt (hulp x hx))
    have h2 := zipWith_socProd_socDiv u.socs w.socs hwsoc husoc
    cases w
    simp only [conicDivision, conicProduct] at *
    rw [h1, h2]

end ConeVec

/-- Witness for C8: the round trip at a concrete rational cone point. -/
theorem conicProduct_conicDivision_inverse_witness :
    conicDivision (⟨[2], [(2, [1])]⟩ : CVec ℚ)
        (conicProduct ⟨[2], [(2, [1])]⟩ ⟨[3], [(1, [1/2])]⟩).1 = ⟨[3], [(1, [1/2])]⟩ ∧
      (conicProduct (⟨[2], [(2, [1])]⟩ : CVec ℚ)
        (conicDivision ⟨[2], [(2, [1])]⟩ ⟨[5], [(2, [3])]⟩)).1 = ⟨[5], [(2, [3])]⟩ :=
  conicProduct_conicDivision_inverse ⟨[2], [(2, [1])]⟩ ⟨[3], [(1, [1/2])]⟩
    ⟨[5], [(2, [3])]⟩ (by decide) (by decide)
    (by constructor <;> intro b hb <;> simp_all [interiorK, sumsq])

/-- Relative-duality-gap branch of `ECOSEigen::updateStatistics`
(ecos.cpp:518-532).  `some` is the recorded `relgap`; `none` models the
fall-through branch, which in the source prints "relgap is NaN" and calls
`std::exit(-1)`, terminating the process. -/
def updateStatisticsRelgap (pcost dcost gap : ℚ) : Option ℚ :=
  if pcost < 0 then some (gap / (-pcost))
  else if 0 < dcost then some (gap / dcost)
  else none

/-- C2: for every iterate with `pcost >= 0` and `dcost <= 0` the relgap
computation reaches the branch that the claim says records NaN and
continues; in the source that branch calls `std::exit(-1)` (modelled as
`none`), so the process is terminated instead. -/
theorem relgap_nan_branch (pcost dcost gap : ℚ) (h1 : 0 ≤ pcost)
    (h2 : dcost ≤ 0) : updateStatisticsRelgap pcost dcost gap = none := by
  unfold updateStatisticsRelgap
  rw [if_neg (not_lt.2 h1), if_neg (not_lt.2 h2)]

/-- Witness for C2 at `pcost = 0`, `dcost = 0`, `gap = 1`. -/
theorem relgap_nan_branch_witness :
    (0 : ℚ) ≤ 0 ∧ updateStatisticsRelgap 0 0 1 = none :=
  ⟨le_refl 0, relgap_nan_branch 0 0 1 (le_refl 0) (le_refl 0)⟩

/-- The fields of the iterate statistics read by
`ECOSEigen::checkExitConditions`. -/
structure ExitInput where
  cx : ℚ
  byv : ℚ
  hz : ℚ
  pres : ℚ
  dres : ℚ
  gap : ℚ
  relgap : ℚ
  pinfres : Option ℚ
  dinfres : Option ℚ
  tau : ℚ
  kap : ℚ

/-- The C++ comparison `std::optional<double> < double`: an empty optional
compares less than every value. -/
def optLt (o : Option ℚ) (t : ℚ) : Bool :=
  match o with
  | none => true
  | some v => decide (v < t)

/-- The guarded comparison `o.has_value() && o.value() < t`. -/
def optValLt (o : Option ℚ) (t : ℚ) : Bool :=
  match o with
  | none => false
  | some v => decide (v < t)

/-- `ECOSEigen::checkExitConditions` (ecos.cpp:373-458): returns the boolean
the function returns together with the `(pinf, dinf)` flag assignment of the
branch taken (`none` when the fall-through branch leaves both untouched). -/
def checkExitConditions (reduced_accuracy : Bool) (st : ExitInput) :
    Bool × Option (Bool × Bool) :=
  let feastol := if reduced_accuracy then settings.feastol_inacc else settings.feastol
  let abstol := if reduced_accuracy then settings.abstol_inacc else settings.abstol
  let reltol := if reduced_accuracy then settings.reltol_inacc else settings.reltol
  if (0 < -st.cx ∨ -st.byv - st.hz ≥ -abstol) ∧
      (st.pres < feastol ∧ st.dres < feastol) ∧
      (st.gap < abstol ∨ st.relgap < reltol) then
    (true, some (false, false))
  else if optValLt st.dinfres feastol ∧ st.tau < st.kap then
    (false, some (false, true))
  else if (optValLt st.pinfres feastol ∧ st.tau < st.kap) ∨
      (st.tau < feastol ∧ st.kap < feastol ∧ optLt st.pinfres feastol) then
    (false, some (true, false))
  else
    (false, none)

/-- Iterate statistics at which the dual-infeasibility test succeeds while
the optimality test fails: `dinfres` present and below `feastol`, and
`tau < kap`. -/
def dualInfExample : ExitInput :=
  { cx := 1, byv := 0, hz := 0, pres := 1, dres := 1, gap := 1, relgap := 1,
    pinfres := none, dinfres := some 0, tau := 1/2, kap := 1 }

/-- C3: at an iterate satisfying the dual-infeasibility condition
(`dinfres` present and `< feastol`, `tau < kap`) the dual-infeasible branch
of `checkExitConditions` is taken (it sets `dinf`), but the function
returns `false`; since the iteration loop of `solve` (ecos.cpp:811-822)
breaks only when this return value is `true`, the loop does not terminate
at that iteration, contrary to the claim. -/
theorem checkExitConditions_dual_infeasible_no_break :
    (optValLt dualInfExample.dinfres settings.feastol = true ∧
      dualInfExample.tau < dualInfExample.kap) ∧
    checkExitConditions false dualInfExample = (false, some (false, true)) := by
  refine ⟨⟨?_, by norm_num [dualInfExample]⟩, ?_⟩
  · show optValLt (some 0) (1 / 10 ^ 8) = true
    simp [optValLt]
  · norm_num [checkExitConditions, dualInfExample, settings, optValLt, optLt]

/-- Stop condition of the iterative-refinement loop at refinement count `k`
(ecos.cpp:1254-1259), the previous recorded error being `err (k-1)`. -/
def stopCond (nitref : ℕ) (thresh irerr : ℚ) (err : ℕ → ℚ) (k : ℕ) : Prop :=
  k + 1 = nitref ∨ err k < thresh ∨ (0 < k ∧ err (k - 1) < irerr * err k)

/-- Rollback condition of the iterative-refinement loop at count `k`
(ecos.cpp:1245-1252): the new error exceeds the previous one. -/
def rollCond (err : ℕ → ℚ) (k : ℕ) : Prop :=
  0 < k ∧ err (k - 1) < err k

/-- Control flow of the iterative-refinement loop of `ECOSEigen::solveKKT`
(ecos.cpp:1149-1270), abstracted over the error sequence: `err k` is the
infinity-norm residual `nerr` of the solution holding `k` refinement
corrections (the residual values come from the LDLT collaborator, which the
specification treats as a black box).  The result is the returned `k_ref`
(the number of refinement corrections left in effect) and whether the last
correction was rolled back (`x -= dx_ref`).  The C++ loop bound
`k_ref <= nitref` is the fuel; the `size_t` comparison
`k_ref == nitref - 1` is rendered as `k + 1 = nitref` to keep the wrapping
semantics at `nitref = 0`. -/
def refineGo (nitref : ℕ) (thresh irerr : ℚ) (err : ℕ → ℚ) :
    ℕ → ℕ → ℚ → ℕ × Bool
  | 0, k, _ => (k, false)
  | fuel + 1, k, prev =>
    let e := err k
    if 0 < k ∧ prev < e then (k - 1, true)
    else if k + 1 = nitref ∨ e < thresh ∨ (0 < k ∧ prev < irerr * e) then
      (k, false)
    else refineGo nitref thresh irerr err fuel (k + 1) e

/-- The refinement loop entered with `k_ref = 0` and `nerr_prev = DBL_MAX`
(the initial `prev` is never read because both its uses are guarded by
`k_ref > 0`). -/
def refineLoop (nitref : ℕ) (thresh irerr : ℚ) (err : ℕ → ℚ) : ℕ × Bool :=
  refineGo nitref thresh irerr err (nitref + 1) 0 0

/-- Error sequence decreasing by a factor of 10 at every refinement step. -/
def errGeom : ℕ → ℚ := fun k => (1 / 10) ^ k

/-- Counterexample to C6 as stated: with `nitref = 9`, threshold `2e-14`
and errors decreasing by a factor 10 each step, the loop stops after 8
refinement solves (at `k_ref = nitref - 1 = 8`) although the error is
still above the threshold, the count has not reached `nitref = 9`,
refinement is still helping (`prev >= irerrfact * err`), and no rollback
occurred. -/
theorem refineLoop_stops_before_nitref :
    refineLoop 9 (2 / 10 ^ 14) 6 errGeom = (8, false) ∧
    ¬(errGeom 8 < 2 / 10 ^ 14) ∧ (8 : ℕ) ≠ 9 ∧
    ¬(errGeom 7 < 6 * errGeom 8) ∧ ¬(errGeom 7 < errGeom 8) := by
  norm_num [refineLoop, refineGo, errGeom]

theorem refineGo_spec (nitref : ℕ) (h1 : 1 ≤ nitref) (thresh irerr : ℚ)
    (err : ℕ → ℚ) :
    ∀ fuel k prev, k + fuel = nitref + 1 → (0 < k → prev = err (k - 1)) →
    (∀ j, j < k → ¬stopCond nitref thresh irerr err j ∧ ¬rollCond err j) →
    (refineGo nitref thresh irerr err fuel k prev).1 ≤ nitref - 1 ∧
    (∀ j, j < (if (refineGo nitref thresh irerr err fuel k prev).2 then
        (refineGo nitref thresh irerr err fuel k prev).1 + 1 else
        (refineGo nitref thresh irerr err fuel k prev).1) →
      ¬stopCond nitref thresh irerr err j ∧ ¬rollCond err j) ∧
    (if (refineGo nitref thresh irerr err fuel k prev).2 then
      rollCond err ((refineGo nitref thresh irerr err fuel k prev).1 + 1)
    else stopCond nitref thresh irerr err
      (refineGo nitref thresh irerr err fuel k prev).1) := by
  intro fuel
  induction fuel with
  | zero =>
    intro k prev hsum hprev hacc
    exfalso
    have hk : k = nitref + 1 := by omega
    have := (hacc (nitref - 1) (by omega)).1
    exact this (Or.inl (by omega))
  | succ fuel ih =>
    intro k prev hsum hprev hacc
    have hkle : k ≤ nitref := by
      by_contra hgt
      exact (hacc (nitref - 1) (by omega)).1 (Or.inl (by omega))
    simp only [refineGo]
    by_cases hroll : 0 < k ∧ prev < err k
    · rw [if_pos hroll]
      have hrc : rollCond err k := ⟨hroll.1, by
        rw [← hprev hroll.1]; exact hroll.2⟩
      have hkk : k - 1 + 1 = k := by omega
      refine ⟨by omega, ?_, ?_⟩
      · simp only [hkk]
        exact hacc
      · simp only [hkk]
        exact hrc
    · rw [if_neg hroll]
      by_cases hstop : k + 1 = nitref ∨ err k < thresh ∨
          (0 < k ∧ prev < irerr * err k)
      · rw [if_pos hstop]
        have hsc : stopCond nitref thresh irerr err k := by
          rcases hstop with h | h | h
          · exact Or.inl h
          · exact Or.inr (Or.inl h)
          · exact Or.inr (Or.inr ⟨h.1, by rw [← hprev h.1]; exact h.2⟩)
        have hlt : k ≤ nitref - 1 := by
          rcases hstop with h | _ | _
          · omega
          all_goals
            by_contra hgt
            exact (hacc (nitref - 1) (by omega)).1 (Or.inl (by omega))
        exact ⟨hlt, fun j hj => hacc j hj, hsc⟩
      · rw [if_neg hstop]
        refine ih (k + 1) (err k) (by omega) (fun _ => by simp) ?_
        intro j hj
        rcases Nat.lt_succ_iff_lt_or_eq.1 hj with hj2 | hj2
        · exact hacc j hj2
        · subst hj2
          constructor
          · intro hs
            apply hstop
            rcases hs with h | h | h
            · exact Or.inl h
            · exact Or.inr (Or.inl h)
            · exact Or.inr (Or.inr ⟨h.1, by rw [hprev h.1]; exact h.2⟩)
          · intro hr
            exact hroll ⟨hr.1, by rw [hprev hr.1]; exact hr.2⟩

/-- C6 amended: the refinement loop performs at most `nitref - 1`
refinement solves; it stops exactly at the first count where the error
drops below `(1 + ||rhs||_inf) * linsysacc`, or the count reaches
`nitref - 1` (not `nitref`), or `prev_err < irerrfact * err`, or the error
increased, in which case the last refinement step is rolled back. -/
theorem solveKKT_refinement_stopping (nitref : ℕ) (h1 : 1 ≤ nitref)
    (thresh irerr : ℚ) (err : ℕ → ℚ) :
    (refineLoop nitref thresh irerr err).1 ≤ nitref - 1 ∧
    (∀ j, j < (if (refineLoop nitref thresh irerr err).2 then
        (refineLoop nitref thresh irerr err).1 + 1 else
        (refineLoop nitref thresh irerr err).1) →
      ¬stopCond nitref thresh irerr err j ∧ ¬rollCond err j) ∧
    (if (refineLoop nitref thresh irerr err).2 then
      rollCond err ((refineLoop nitref thresh irerr err).1 + 1)
    else stopCond nitref thresh irerr err
      (refineLoop nitref thresh irerr err).1) :=
  refineGo_spec nitref h1 thresh irerr err (nitref + 1) 0 0 (by omega)
    (by omega) (by omega)

/-- Witness for the amended C6 at `nitref = 9` and a constant error
sequence. -/
theorem solveKKT_refinement_stopping_witness :
    1 ≤ 9 ∧
    ((refineLoop 9 1 6 (fun _ => 0)).1 ≤ 9 - 1 ∧
    (∀ j, j < (if (refineLoop 9 1 6 (fun _ => 0)).2 then
        (refineLoop 9 1 6 (fun _ => 0)).1 + 1 else
        (refineLoop 9 1 6 (fun _ => 0)).1) →
      ¬stopCond 9 1 6 (fun _ => 0) j ∧ ¬rollCond (fun _ => 0) j) ∧
    (if (refineLoop 9 1 6 (fun _ => 0)).2 then
      rollCond (fun _ => 0) ((refineLoop 9 1 6 (fun _ => 0)).1 + 1)
    else stopCond 9 1 6 (fun _ => 0)
      (refineLoop 9 1 6 (fun _ => 0)).1)) :=
  ⟨by omega, solveKKT_refinement_stopping 9 (by omega) 1 6 (fun _ => 0)⟩

noncomputable section RealModel

/-- Euclidean norm of a list of reals (`Eigen .norm`). -/
def tnorm (xs : List ℝ) : ℝ := Real.sqrt (sumsq xs)

/-- Residual accumulation of `ECOSEigen::bringToCone` (ecos.cpp:577-602):
`alpha` starts at `-gamma` and is raised by every violated LP coordinate
(`r_i <= 0`) and every violated SOC residual (`r0 - ||r1|| <= 0`). -/
def bringToConeAlpha (r : CVec ℝ) : ℝ :=
  let a1 := r.lp.foldl
    (fun alpha ri => if ri ≤ 0 ∧ -ri > alpha then -ri else alpha)
    (-(settings.gamma : ℝ))
  r.socs.foldl
    (fun alpha b =>
      let cres := b.1 - tnorm b.2
      if cres ≤ 0 ∧ -cres > alpha then -cres else alpha) a1

/-- `ECOSEigen::bringToCone` (ecos.cpp:575-619): `1 + alpha` is added,
unconditionally, to every LP coordinate and to every SOC head. -/
def bringToCone (r : CVec ℝ) : CVec ℝ :=
  let alpha := bringToConeAlpha r + 1
  ⟨r.lp.map (fun ri => ri + alpha), r.socs.map (fun b => (b.1 + alpha, b.2))⟩

/-- The behaviour claim C5 ascribes to bringToCone, following its words:
`alpha = max(-gamma, max_i (-r_i) over LP, max_cone (||r1|| - r0))`; if
`alpha <= 0` the output is `r` unchanged, otherwise `r + (1 + alpha) e`. -/
def bringToConeSpec (r : CVec ℝ) : CVec ℝ :=
  let alpha := ((r.lp.map (fun ri => -ri)) ++
    (r.socs.map (fun b => tnorm b.2 - b.1))).foldl max (-(settings.gamma : ℝ))
  if alpha ≤ 0 then r
  else ⟨r.lp.map (fun ri => ri + (1 + alpha)),
    r.socs.map (fun b => (b.1 + (1 + alpha), b.2))⟩

theorem lpFold_spec (xs : List ℝ) (a0 : ℝ) :
    a0 ≤ xs.foldl (fun alpha ri => if ri ≤ 0 ∧ -ri > alpha then -ri else alpha) a0 ∧
    (∀ x ∈ xs, x ≤ 0 →
      -x ≤ xs.foldl (fun alpha ri => if ri ≤ 0 ∧ -ri > alpha then -ri else alpha) a0) ∧
    (xs.foldl (fun alpha ri => if ri ≤ 0 ∧ -ri > alpha then -ri else alpha) a0 = a0 ∨
      ∃ x ∈ xs, x ≤ 0 ∧
        xs.foldl (fun alpha ri => if ri ≤ 0 ∧ -ri > alpha then -ri else alpha) a0 = -x) := by
  induction xs generalizing a0 with
  | nil => simp
  | cons x xs ih =>
    simp only [List.foldl_cons]
    obtain ⟨h1, h2, h3⟩ := ih (if x ≤ 0 ∧ -x > a0 then -x else a0)
    have ha0 : a0 ≤ (if x ≤ 0 ∧ -x > a0 then -x else a0) := by
      split_ifs with h
      · exact le_of_lt h.2
      · exact le_refl a0
    refine ⟨le_trans ha0 h1, ?_, ?_⟩
    · intro y hy hpy
      rcases List.mem_cons.1 hy with rfl | hy2
      · refine le_trans ?_ h1
        split_ifs with h
        · exact le_refl _
        · push_neg at h
          by_contra hgt
          push_neg at hgt
          exact absurd (h hpy) (not_le.2 hgt)
      · exact h2 y hy2 hpy
    · rcases h3 with h3 | h3
      · rw [h3]
        split_ifs at h3 ⊢ with h
        · exact Or.inr ⟨x, List.mem_cons_self .., h.1, rfl⟩
        · exact Or.inl rfl
      · obtain ⟨y, hy, hpy, hres⟩ := h3
        exact Or.inr ⟨y, List.mem_cons_of_mem _ hy, hpy, hres⟩

theorem socFold_spec (bs : List (ℝ × List ℝ)) (a0 : ℝ) :
    a0 ≤ bs.foldl (fun alpha b =>
        let cres := b.1 - tnorm b.2
        if cres ≤ 0 ∧ -cres > alpha then -cres else alpha) a0 ∧
    (∀ b ∈ bs, b.1 - tnorm b.2 ≤ 0 →
      tnorm b.2 - b.1 ≤ bs.foldl (fun alpha b =>
        let cres := b.1 - tnorm b.2
        if cres ≤ 0 ∧ -cres > alpha then -cres else alpha) a0) ∧
    (bs.foldl (fun alpha b =>
        let cres := b.1 - tnorm b.2
        if cres ≤ 0 ∧ -cres > alpha then -cres else alpha) a0 = a0 ∨
      ∃ b ∈ bs, b.1 - tnorm b.2 ≤ 0 ∧
        bs.foldl (fun alpha b =>
          let cres := b.1 - tnorm b.2
          if cres ≤ 0 ∧ -cres > alpha then -cres else alpha) a0 = tnorm b.2 - b.1) := by
  induction bs generalizing a0 with
  | nil => simp
  | cons b bs ih =>
    simp only [List.foldl_cons]
    obtain ⟨h1, h2, h3⟩ :=
      ih (if b.1 - tnorm b.2 ≤ 0 ∧ -(b.1 - tnorm b.2) > a0 then -(b.1 - tnorm b.2) else a0)
    have ha0 : a0 ≤ (if b.1 - tnorm b.2 ≤ 0 ∧ -(b.1 - tnorm b.2) > a0
        then -(b.1 - tnorm b.2) else a0) := by
      split_ifs with h
      · exact le_of_lt h.2
      · exact le_refl a0
    refine ⟨le_trans ha0 h1, ?_, ?_⟩
    · intro c hc hpc
      rcases List.mem_cons.1 hc with rfl | hc2
      · refine le_trans ?_ h1
        split_ifs with h
        · exact le_of_eq (by ring)
        · push_neg at h
          by_contra hgt
          push_neg at hgt
          have := h hpc
          rw [neg_sub] at this
          exact absurd this (not_le.2 hgt)
      · exact h2 c hc2 hpc
    · rcases h3 with h3 | h3
      · rw [h3]
        split_ifs at h3 ⊢ with h
        · exact Or.inr ⟨b, List.mem_cons_self .., h.1, by rw [neg_sub]⟩
        · exact Or.inl rfl
      · obtain ⟨c, hc, hpc, hres⟩ := h3
        exact Or.inr ⟨c, List.mem_cons_of_mem _ hc, hpc, hres⟩

/-- C5 amended: `bringToCone` always returns `r + (1 + alpha) e` — also
when `alpha <= 0`, where the claim says `r` is returned unchanged — and
`alpha` is `-gamma` raised only by the violated residuals: `-r_i` for LP
coordinates with `r_i <= 0` and `||r1|| - r0` for SOC blocks with
`r0 - ||r1|| <= 0` (coordinates with `r_i > 0`, and SOC blocks with
positive residual, do not enter the maximum). -/
theorem bringToCone_characterization (r : CVec ℝ) :
    (bringToCone r).lp = r.lp.map (fun ri => ri + (bringToConeAlpha r + 1)) ∧
    (bringToCone r).socs =
      r.socs.map (fun b => (b.1 + (bringToConeAlpha r + 1), b.2)) ∧
    -(settings.gamma : ℝ) ≤ bringToConeAlpha r ∧
    (∀ x ∈ r.lp, x ≤ 0 → -x ≤ bringToConeAlpha r) ∧
    (∀ b ∈ r.socs, b.1 - tnorm b.2 ≤ 0 →
      tnorm b.2 - b.1 ≤ bringToConeAlpha r) ∧
    (bringToConeAlpha r = -(settings.gamma : ℝ) ∨
      (∃ x ∈ r.lp, x ≤ 0 ∧ bringToConeAlpha r = -x) ∨
      (∃ b ∈ r.socs, b.1 - tnorm b.2 ≤ 0 ∧
        bringToConeAlpha r = tnorm b.2 - b.1)) := by
  obtain ⟨hlp1, hlp2, hlp3⟩ := lpFold_spec r.lp (-(settings.gamma : ℝ))
  obtain ⟨hs1, hs2, hs3⟩ := socFold_spec r.socs
    (r.lp.foldl (fun alpha ri => if ri ≤ 0 ∧ -ri > alpha then -ri else alpha)
      (-(settings.gamma : ℝ)))
  have halpha : bringToConeAlpha r = r.socs.foldl (fun alpha b =>
      let cres := b.1 - tnorm b.2
      if cres ≤ 0 ∧ -cres > alpha then -cres else alpha)
      (r.lp.foldl (fun alpha ri => if ri ≤ 0 ∧ -ri > alpha then -ri else alpha)
        (-(settings.gamma : ℝ))) := rfl
  refine ⟨rfl, rfl, ?_, ?_, ?_, ?_⟩
  · rw [halpha]; exact le_trans hlp1 hs1
  · intro x hx hpx
    rw [halpha]; exact le_trans (hlp2 x hx hpx) hs1
  · intro b hb hpb
    rw [halpha]; exact hs2 b hb hpb
  · rw [halpha]
    rcases hs3 with h | h
    · rw [h]
      rcases hlp3 with h2 | h2
      · exact Or.inl h2
      · exact Or.inr (Or.inl h2)
    · exact Or.inr (Or.inr h)

/-- Counterexample to C5 as stated: for `r = [1/2]` (one LP coordinate, no
SOC blocks) the claim's `alpha = max(-gamma, -1/2) = -1/2 <= 0`, so the
claim requires the output `r` unchanged; the code adds
`1 + (-gamma) = 1/100` to the coordinate and returns `[51/100]`. -/
theorem bringToCone_differs_from_claim :
    bringToConeSpec ⟨[1/2], []⟩ = ⟨[1/2], []⟩ ∧
    bringToCone ⟨[1/2], []⟩ = ⟨[51/100], []⟩ ∧
    bringToCone (⟨[1/2], []⟩ : CVec ℝ) ≠ bringToConeSpec ⟨[1/2], []⟩ := by
  have h1 : bringToConeSpec ⟨[1/2], []⟩ = ⟨[1/2], []⟩ := by
    unfold bringToConeSpec
    norm_num [max_def, settings]
  have h2 : bringToCone ⟨[1/2], []⟩ = ⟨[51/100], []⟩ := by
    unfold bringToCone bringToConeAlpha
    norm_num [settings]
  refine ⟨h1, h2, ?_⟩
  rw [h1, h2]
  simp only [ne_eq, CVec.mk.injEq, List.cons.injEq]
  norm_num

/-- C10: the output of bringToCone lies strictly inside the cone with
margin `1 - gamma = 1/100`: every LP coordinate is at least `1 - gamma`
and every SOC block satisfies `s0 - ||s1|| >= 1 - gamma`, and
`1 - gamma > 0`. -/
theorem bringToCone_strict_interior (r : CVec ℝ) :
    (∀ x ∈ (bringToCone r).lp, 1 - (settings.gamma : ℝ) ≤ x) ∧
    (∀ b ∈ (bringToCone r).socs, 1 - (settings.gamma : ℝ) ≤ b.1 - tnorm b.2) ∧
    (0 : ℝ) < 1 - (settings.gamma : ℝ) := by
  obtain ⟨hlp1, hlp2, hlp3⟩ := lpFold_spec r.lp (-(settings.gamma : ℝ))
  obtain ⟨hs1, hs2, hs3⟩ := socFold_spec r.socs
    (r.lp.foldl (fun alpha ri => if ri ≤ 0 ∧ -ri > alpha then -ri else alpha)
      (-(settings.gamma : ℝ)))
  have halow : -(settings.gamma : ℝ) ≤ bringToConeAlpha r := le_trans hlp1 hs1
  have halpha : bringToConeAlpha r = r.socs.foldl (fun alpha b =>
      let cres := b.1 - tnorm b.2
      if cres ≤ 0 ∧ -cres > alpha then -cres else alpha)
      (r.lp.foldl (fun alpha ri => if ri ≤ 0 ∧ -ri > alpha then -ri else alpha)
        (-(settings.gamma : ℝ))) := rfl
  have hg : (0 : ℝ) ≤ (settings.gamma : ℝ) := by norm_num [settings]
  refine ⟨?_, ?_, by norm_num [settings]⟩
  · intro x hx
    simp only [bringToCone, List.mem_map] at hx
    obtain ⟨ri, hri, rfl⟩ := hx
    rcases le_or_lt ri 0 with hcase | hcase
    · have h4 : -ri ≤ bringToConeAlpha r := by
        rw [halpha]; exact le_trans (hlp2 ri hri hcase) hs1
      linarith
    · linarith
  · intro b hb
    simp only [bringToCone, List.mem_map] at hb
    obtain ⟨c, hc, rfl⟩ := hb
    simp only
    rcases le_or_lt (c.1 - tnorm c.2) 0 with hcase | hcase
    · have h4 : tnorm c.2 - c.1 ≤ bringToConeAlpha r := by
        rw [halpha]; exact hs2 c hc hcase
      linarith
    · linarith

/-- NT scaling record of one second-order cone: the fields of
`struct SecondOrderCone` (ecos.hpp) written by updateScalings. -/
structure SOCScaling where
  eta : ℝ
  eta_square : ℝ
  a : ℝ
  q : List ℝ
  w : ℝ
  d1 : ℝ
  u0 : ℝ
  u1 : ℝ
  v1 : ℝ
  skbar : ℝ × List ℝ
  zkbar : ℝ × List ℝ

/-- LP and SOC scaling state: the `PositiveCone` fields `v`, `w` plus the
cone records. -/
structure ScalingState where
  lp_v : List ℝ
  lp_w : List ℝ
  socs : List SOCScaling

/-- `sqrt(sres)` of a cone block (ecos.cpp:280). -/
def snormOf (sb : ℝ × List ℝ) : ℝ := Real.sqrt (socRes sb)

/-- Normalized cone block `s / sqrt(sres)` (ecos.cpp:283). -/
def skbarOf (sb : ℝ × List ℝ) : ℝ × List ℝ := bdiv sb (snormOf sb)

/-- The scalar `gamma = sqrt((1 + skbar . zkbar)/2)` (ecos.cpp:290-291). -/
def gammaOf (sb zb : ℝ × List ℝ) : ℝ :=
  Real.sqrt ((1 / 2) * (1 + bdot (skbarOf sb) (skbarOf zb)))

/-- The head `a = (skbar0 + zkbar0) / (2 gamma)` of the NT scaling point
(ecos.cpp:293). -/
def aOf (sb zb : ℝ × List ℝ) : ℝ :=
  (1 / 2 / gammaOf sb zb) * ((skbarOf sb).1 + (skbarOf zb).1)

/-- The tail `q = (skbar1 - zkbar1) / (2 gamma)` of the NT scaling point
(ecos.cpp:294-295). -/
def qOf (sb zb : ℝ × List ℝ) : List ℝ :=
  lSMul (1 / 2 / gammaOf sb zb) (lSub (skbarOf sb).2 (skbarOf zb).2)

/-- `w = ||q||^2` (ecos.cpp:296). -/
def wOf (sb zb : ℝ × List ℝ) : ℝ := sumsq (qOf sb zb)

/-- `c = (1+a) + w/(1+a)` (ecos.cpp:301). -/
def cOf (sb zb : ℝ × List ℝ) : ℝ :=
  (1 + aOf sb zb) + wOf sb zb / (1 + aOf sb zb)

/-- `d = 1 + 2/(1+a) + w/(1+a)^2` (ecos.cpp:302). -/
def dOf (sb zb : ℝ × List ℝ) : ℝ :=
  1 + 2 / (1 + aOf sb zb) + wOf sb zb / (1 + aOf sb zb) ^ 2

/-- `d1 = max(0, (a^2 + w (1 - c^2/(1 + w d)))/2)` (ecos.cpp:304). -/
def d1Of (sb zb : ℝ × List ℝ) : ℝ :=
  max 0 ((1 / 2) * (aOf sb zb * aOf sb zb +
    wOf sb zb * (1 - cOf sb zb ^ 2 / (1 + wOf sb zb * dOf sb zb))))

/-- `u0^2 = a^2 + w - d1` (ecos.cpp:305). -/
def u0sqOf (sb zb : ℝ × List ℝ) : ℝ :=
  aOf sb zb * aOf sb zb + wOf sb zb - d1Of sb zb

/-- `c^2 / u0^2` (ecos.cpp:307). -/
def c2byu02Of (sb zb : ℝ × List ℝ) : ℝ :=
  cOf sb zb * cOf sb zb / u0sqOf sb zb

/-- `eta^2 = snorm / znorm` (ecos.cpp:286). -/
def etaSqOf (sb zb : ℝ × List ℝ) : ℝ := snormOf sb / snormOf zb

/-- Per-cone NT scaling update (ecos.cpp:271-319): `none` (the C++
`return false`) when a cone residual or the derived quantity
`c^2/u0^2 - d` is nonpositive. -/
def socUpdateScaling (sb zb : ℝ × List ℝ) : Option SOCScaling :=
  if socRes sb ≤ 0 ∨ socRes zb ≤ 0 then none
  else if c2byu02Of sb zb - dOf sb zb ≤ 0 then none
  else some
    { eta := Real.sqrt (etaSqOf sb zb)
      eta_square := etaSqOf sb zb
      a := aOf sb zb
      q := qOf sb zb
      w := wOf sb zb
      d1 := d1Of sb zb
      u0 := Real.sqrt (u0sqOf sb zb)
      u1 := Real.sqrt (c2byu02Of sb zb)
      v1 := Real.sqrt (c2byu02Of sb zb - dOf sb zb)
      skbar := skbarOf sb
      zkbar := skbarOf zb }

/-- The SOC loop of updateScalings in iteration order: the C++ returns
false at the first failing cone, rendered as `none`. -/
def socUpdateList : List (ℝ × List ℝ) → List (ℝ × List ℝ) →
    Option (List SOCScaling)
  | sb :: ss, zb :: zs =>
    match socUpdateScaling sb zb, socUpdateList ss zs with
    | some sc, some rest => some (sc :: rest)
    | _, _ => none
  | _, _ => some []

/-- One SOC block of the fast scaling multiply `ECOSEigen::scale`
(ecos.cpp:337-353): `lambda = eta * (a z0 + zeta, z1 + factor q)` with
`zeta = q . z1` and `factor = z0 + zeta/(1+a)`; definitionally `eta`
times the arrow rotation `lorentzApply a q`. -/
def scaleBlk (sc : SOCScaling) (zb : ℝ × List ℝ) : ℝ × List ℝ :=
  let zeta := dot sc.q zb.2
  let factor := zb.1 + zeta / (1 + sc.a)
  (sc.eta * (sc.a * zb.1 + zeta),
   lSMul sc.eta (lAdd zb.2 (lSMul factor sc.q)))

theorem scaleBlk_eq_lorentz (sc : SOCScaling) (zb : ℝ × List ℝ) :
    scaleBlk sc zb = bSMul sc.eta (lorentzApply sc.a sc.q zb) := rfl

/-- `ECOSEigen::scale` (ecos.cpp:332-354): `lambda = W z`, blockwise. -/
def scaleVec (P : ScalingState) (z : CVec ℝ) : CVec ℝ :=
  ⟨List.zipWith (· * ·) P.lp_w z.lp, List.zipWith scaleBlk P.socs z.socs⟩

/-- `ECOSEigen::updateScalings` (ecos.cpp:259-325): the LP scalings
`v = s/z` and `w = sqrt v`, the per-cone NT records, and `lambda = W z`;
`none` models the C++ `return false`. -/
def updateScalings (s z : CVec ℝ) : Option (ScalingState × CVec ℝ) :=
  let lp_v := List.zipWith (· / ·) s.lp z.lp
  let lp_w := lp_v.map Real.sqrt
  match socUpdateList s.socs z.socs with
  | none => none
  | some socs => some (⟨lp_v, lp_w, socs⟩, scaleVec ⟨lp_v, lp_w, socs⟩ z)

/-- C1: at an iterate whose SOC has nonpositive s-residual (the block
`s = (1, [2])` has `sres = 1 - 4 = -3`), updateScalings reports failure
(`none`, the C++ `false`).  The iteration loop of solve (ecos.cpp:823)
discards this boolean and runs the rest of the iteration — the loop breaks
only on the checkExitConditions result — and `solve` returns void, so no
numerical_failure status with the previous-iteration iterate exists. -/
theorem updateScalings_detects_cone_failure :
    updateScalings ⟨[], [(1, [2])]⟩ ⟨[], [(1, [0])]⟩ = none := by
  have hres : socRes ((1 : ℝ), [(2 : ℝ)]) = -3 := by
    norm_num [socRes, sumsq, dot]
  norm_num [updateScalings, socUpdateList, socUpdateScaling, hres]

/-- Eigen `minCoeff` of a nonempty vector (the source guards the call with
`num_pc > 0`). -/
def lMin : List ℝ → ℝ
  | [] => 0
  | x :: xs => xs.foldl min x

/-- The `rho` vector of the conic line search (ecos.cpp:1095-1098), and,
applied to `dz`, the `sigma` vector (ecos.cpp:1101-1104):
`rho0 = lknorminv * lkbar_times_dsk` and
`rho1 = lknorminv * (ds1 - factor * lkbar1)` with
`factor = (lkbar_times_dsk + ds0) / (lkbar0 + 1)`. -/
def lsRho (lb d : ℝ × List ℝ) : ℝ × List ℝ :=
  let lknorm := Real.sqrt (lb.1 ^ 2 - sumsq lb.2)
  let lkbar := bdiv lb lknorm
  let lknorminv := 1 / lknorm
  let lkbar_times_dsk := lkbar.1 * d.1 - dot lkbar.2 d.2
  let factor := (lkbar_times_dsk + d.1) / (lkbar.1 + 1)
  (lknorminv * lkbar_times_dsk,
   lSMul lknorminv (lSub d.2 (lSMul factor lkbar.2)))

/-- SOC loop of `ECOSEigen::lineSearch` (ecos.cpp:1073-1116).  The local
`conic_step` is declared uninitialized and appears inside its own
initializer `std::max({0., sigmanorm, rhonorm, conic_step})`; its
indeterminate initial contents are the explicit `junk` values, one per
cone.  The source's `continue` for a cone with `lknorm2 <= 0` also skips
the `cone_start += sc.dim` advance, which leaves later flat-vector reads
misaligned; the block model advances to the next cone, which is what the
surrounding loop intends. -/
def socLineSearch : List (ℝ × List ℝ) → List (ℝ × List ℝ) →
    List (ℝ × List ℝ) → List ℝ → ℝ → ℝ
  | lb :: ls, db :: dss, zb :: zs, j :: js, alpha =>
    if lb.1 ^ 2 - sumsq lb.2 ≤ 0 then socLineSearch ls dss zs js alpha
    else
      let rho := lsRho lb db
      let rhonorm := tnorm rho.2 - rho.1
      let sigma := lsRho lb zb
      let sigmanorm := tnorm sigma.2 - sigma.1
      let conic_step := max (max 0 sigmanorm) (max rhonorm j)
      socLineSearch ls dss zs js
        (if conic_step ≠ 0 then min (1 / conic_step) alpha else alpha)
  | _, _, _, _, alpha => alpha

/-- LP-cone stage of `ECOSEigen::lineSearch` (ecos.cpp:1041-1059): the
initial `alpha` from the minimum quotients `ds_i / lambda_i` and
`dz_i / lambda_i`, with the local `eps = 1e-13`, or 10 when the LP cone is
empty. -/
def lpAlpha (lamlp dslp dzlp : List ℝ) : ℝ :=
  if lamlp.length ≠ 0 then
    let rhomin := lMin (List.zipWith (· / ·) dslp lamlp)
    let sigmamin := lMin (List.zipWith (· / ·) dzlp lamlp)
    let eps : ℝ := 1 / 10 ^ 13
    if -sigmamin > -rhomin then
      (if sigmamin < 0 then 1 / (-sigmamin) else 1 / eps)
    else
      (if rhomin < 0 then 1 / (-rhomin) else 1 / eps)
  else 10

/-- `ECOSEigen::lineSearch` (ecos.cpp:1037-1116) before the final
saturation: the LP bound, the tau and kappa bounds, then the SOC loop. -/
def lineSearchUnclamped (lambda ds dz : CVec ℝ) (tau dtau kap dkap : ℝ)
    (junk : List ℝ) : ℝ :=
  let alpha0 := lpAlpha lambda.lp ds.lp dz.lp
  let alpha1 :=
    if -tau / dtau > 0 ∧ -tau / dtau < alpha0 then -tau / dtau else alpha0
  let alpha2 :=
    if -kap / dkap > 0 ∧ -kap / dkap < alpha1 then -kap / dkap else alpha1
  socLineSearch lambda.socs ds.socs dz.socs junk alpha2

/-- `ECOSEigen::lineSearch` result: the SOC-loop value saturated between
stepmin and stepmax (ecos.cpp:1119). -/
def lineSearch (lambda ds dz : CVec ℝ) (tau dtau kap dkap : ℝ)
    (junk : List ℝ) : ℝ :=
  max (settings.stepmin : ℝ)
    (min (lineSearchUnclamped lambda ds dz tau dtau kap dkap junk)
      (settings.stepmax : ℝ))

/-- C7: at a cone with positive normalizer (`lambda = (5, [3])`,
`ds = dz = 0`) the step bound depends on the indeterminate initial value
of `conic_step`: junk 0 leaves the step at the saturation bound 0.999,
junk 4 forces 1/4, so `conic_step` is not the claimed well-defined
`max(rhonorm, sigmanorm, 0)` (which is 0 here) and the uninitialized
read is observable. -/
theorem lineSearch_reads_uninitialized_conic_step :
    lineSearch ⟨[], [((5 : ℝ), [3])]⟩ ⟨[], [(0, [0])]⟩ ⟨[], [(0, [0])]⟩
      1 1 1 1 [0] = 999 / 1000 ∧
    lineSearch ⟨[], [((5 : ℝ), [3])]⟩ ⟨[], [(0, [0])]⟩ ⟨[], [(0, [0])]⟩
      1 1 1 1 [4] = 1 / 4 ∧
    (999 / 1000 : ℝ) ≠ 1 / 4 := by
  have hs16 : Real.sqrt ((5 : ℝ) ^ 2 - sumsq [(3 : ℝ)]) = 4 := by
    rw [show (5 : ℝ) ^ 2 - sumsq [(3 : ℝ)] = 4 ^ 2 by norm_num [sumsq, dot]]
    exact Real.sqrt_sq (by norm_num)
  have hrho : lsRho ((5 : ℝ), [3]) (0, [0]) = (0, [0]) := by
    simp only [lsRho, hs16, bdiv]
    norm_num [dot, lSub, lSMul]
  have ht0 : tnorm [(0 : ℝ)] = 0 := by
    norm_num [tnorm, sumsq, dot, Real.sqrt_zero]
  have hsoc : ∀ alpha : ℝ, socLineSearch [((5 : ℝ), [3])] [(0, [0])]
      [(0, [0])] [0] alpha = alpha := by
    intro alpha
    rw [socLineSearch, if_neg (by norm_num [sumsq, dot]), hrho]
    simp only [ht0]
    norm_num [socLineSearch]
  have hsoc4 : ∀ alpha : ℝ, 1 / 4 ≤ alpha → socLineSearch [((5 : ℝ), [3])]
      [(0, [0])] [(0, [0])] [4] alpha = 1 / 4 := by
    intro alpha halpha
    rw [socLineSearch, if_neg (by norm_num [sumsq, dot]), hrho]
    simp only [ht0]
    norm_num [socLineSearch, max_def, min_def]
    intro h
    linarith
  have hun : ∀ j : List ℝ, lineSearchUnclamped ⟨[], [((5 : ℝ), [3])]⟩
      ⟨[], [(0, [0])]⟩ ⟨[], [(0, [0])]⟩ 1 1 1 1 j =
      socLineSearch [((5 : ℝ), [3])] [(0, [0])] [(0, [0])] j 10 := by
    intro j
    simp only [lineSearchUnclamped, lpAlpha]
    norm_num
  refine ⟨?_, ?_, by norm_num⟩
  · rw [lineSearch, hun, hsoc]
    norm_num [settings, max_def, min_def]
  · rw [lineSearch, hun, hsoc4 10 (by norm_num)]
    norm_num [settings, max_def, min_def]

theorem foldl_min_le (xs : List ℝ) (a : ℝ) :
    xs.foldl min a ≤ a ∧ ∀ x ∈ xs, xs.foldl min a ≤ x := by
  induction xs generalizing a with
  | nil => exact ⟨le_refl a, by simp⟩
  | cons x xs ih =>
    obtain ⟨h1, h2⟩ := ih (min a x)
    refine ⟨le_trans h1 (min_le_left a x), ?_⟩
    intro y hy
    rcases List.mem_cons.1 hy with rfl | hy2
    · exact le_trans h1 (min_le_right a y)
    · exact h2 y hy2

theorem lMin_le (xs : List ℝ) (x : ℝ) (hx : x ∈ xs) : lMin xs ≤ x := by
  cases xs with
  | nil => simp at hx
  | cons y ys =>
    rcases List.mem_cons.1 hx with rfl | hx2
    · exact (foldl_min_le ys x).1
    · exact (foldl_min_le ys y).2 x hx2

theorem zip_mem_zipWith_div (ds ls : List ℝ) (d l : ℝ)
    (h : (d, l) ∈ List.zip ds ls) : d / l ∈ List.zipWith (· / ·) ds ls := by
  induction ds generalizing ls with
  | nil => simp [List.zip] at h
  | cons a as ih =>
    cases ls with
    | nil => simp [List.zip] at h
    | cons b bs =>
      rw [List.zip_cons_cons] at h
      rcases List.mem_cons.1 h with heq | h2
      · rw [Prod.mk.injEq] at heq
        obtain ⟨rfl, rfl⟩ := heq
        exact List.mem_cons_self _ _
      · exact List.mem_cons_of_mem _ (ih bs h2)

theorem socLineSearch_le (ls : List (ℝ × List ℝ)) :
    ∀ (dss zs : List (ℝ × List ℝ)) (js : List ℝ) (alpha : ℝ),
    socLineSearch ls dss zs js alpha ≤ alpha := by
  induction ls with
  | nil => intro dss zs js alpha; rfl
  | cons lb ls ih =>
    intro dss zs js alpha
    cases dss with
    | nil => rfl
    | cons db dss =>
      cases zs with
      | nil => rfl
      | cons zb zs =>
        cases js with
        | nil => rfl
        | cons j js =>
          rw [socLineSearch]
          split_ifs with h1
          · exact ih dss zs js alpha
          · refine le_trans (ih dss zs js _) ?_
            split_ifs with h2
            · exact min_le_right _ _
            · exact le_refl alpha

theorem lpAlpha_le_ds (lamlp dslp dzlp : List ℝ) (d l : ℝ)
    (hmem : (d, l) ∈ List.zip dslp lamlp) (hl : 0 < l) (hd : d < 0) :
    lpAlpha lamlp dslp dzlp ≤ l / (-d) := by
  have hne : lamlp.length ≠ 0 := by
    cases lamlp with
    | nil => simp [List.zip_nil_right] at hmem
    | cons x xs => simp
  have hq : d / l ∈ List.zipWith (· / ·) dslp lamlp :=
    zip_mem_zipWith_div dslp lamlp d l hmem
  have hrho : lMin (List.zipWith (· / ·) dslp lamlp) ≤ d / l := lMin_le _ _ hq
  have hdl : d / l < 0 := div_neg_of_neg_of_pos hd hl
  have hinv : 1 / (-(d / l)) = l / (-d) := by
    field_simp
  rw [lpAlpha, if_pos hne]
  simp only []
  split_ifs with h1 h2 h3
  · rw [← hinv]
    apply one_div_le_one_div_of_le (by linarith)
    linarith
  · exfalso
    exact h2 (by linarith)
  · rw [← hinv]
    apply one_div_le_one_div_of_le (by linarith)
    linarith
  · exfalso
    exact h3 (by linarith)

theorem lpAlpha_le_dz (lamlp dslp dzlp : List ℝ) (d l : ℝ)
    (hmem : (d, l) ∈ List.zip dzlp lamlp) (hl : 0 < l) (hd : d < 0) :
    lpAlpha lamlp dslp dzlp ≤ l / (-d) := by
  have hne : lamlp.length ≠ 0 := by
    cases lamlp with
    | nil => simp [List.zip_nil_right] at hmem
    | cons x xs => simp
  have hq : d / l ∈ List.zipWith (· / ·) dzlp lamlp :=
    zip_mem_zipWith_div dzlp lamlp d l hmem
  have hsig : lMin (List.zipWith (· / ·) dzlp lamlp) ≤ d / l := lMin_le _ _ hq
  have hdl : d / l < 0 := div_neg_of_neg_of_pos hd hl
  have hinv : 1 / (-(d / l)) = l / (-d) := by
    field_simp
  rw [lpAlpha, if_pos hne]
  simp only []
  split_ifs with h1 h2 h3
  · rw [← hinv]
    apply one_div_le_one_div_of_le (by linarith)
    linarith
  · exfalso
    exact h2 (by linarith)
  · rw [← hinv]
    apply one_div_le_one_div_of_le (by linarith)
    linarith
  · exfalso
    exact h3 (by linarith)

theorem skbar_facts (sb : ℝ × List ℝ) (hres : 0 < socRes sb) (h0 : 0 < sb.1) :
    0 < (skbarOf sb).1 ∧ sumsq (skbarOf sb).2 = (skbarOf sb).1 ^ 2 - 1 ∧
    (skbarOf sb).2.length = sb.2.length ∧ 0 < snormOf sb := by
  have hsn : 0 < snormOf sb := Real.sqrt_pos.2 hres
  have hsq : snormOf sb ^ 2 = socRes sb := Real.sq_sqrt hres.le
  refine ⟨div_pos h0 hsn, ?_, by simp [skbarOf, bdiv], hsn⟩
  show sumsq ((bdiv sb (snormOf sb)).2) = ((bdiv sb (snormOf sb)).1) ^ 2 - 1
  simp only [bdiv]
  rw [sumsq_map_div, div_pow]
  have hss : sumsq sb.2 = sb.1 ^ 2 - socRes sb := by
    simp only [socRes]; ring
  rw [hss, hsq]
  field_simp

theorem bdot_skbar_pos (sb zb : ℝ × List ℝ)
    (hress : 0 < socRes sb) (hresz : 0 < socRes zb)
    (hs0 : 0 < sb.1) (hz0 : 0 < zb.1) (hlen : zb.2.length = sb.2.length) :
    0 < bdot (skbarOf sb) (skbarOf zb) := by
  obtain ⟨hsb0, hsbu, hsbl, hsn⟩ := skbar_facts sb hress hs0
  obtain ⟨hzb0, hzbu, hzbl, hzn⟩ := skbar_facts zb hresz hz0
  have hcs := dot_sq_le_sumsq_mul_sumsq (skbarOf sb).2 (skbarOf zb).2
  have h1 := sumsq_nonneg (skbarOf sb).2
  have h2 := sumsq_nonneg (skbarOf zb).2
  show 0 < (skbarOf sb).1 * (skbarOf zb).1 + dot (skbarOf sb).2 (skbarOf zb).2
  by_contra hcon
  push_neg at hcon
  have hneg : dot (skbarOf sb).2 (skbarOf zb).2 ≤
      -((skbarOf sb).1 * (skbarOf zb).1) := by linarith
  have hpos : 0 < (skbarOf sb).1 * (skbarOf zb).1 := mul_pos hsb0 hzb0
  have hsq2 : ((skbarOf sb).1 * (skbarOf zb).1) ^ 2 ≤
      dot (skbarOf sb).2 (skbarOf zb).2 ^ 2 := by
    nlinarith [mul_nonneg (by linarith : (0:ℝ) ≤ -(dot (skbarOf sb).2 (skbarOf zb).2) - (skbarOf sb).1 * (skbarOf zb).1)
      (by linarith : (0:ℝ) ≤ -(dot (skbarOf sb).2 (skbarOf zb).2) + (skbarOf sb).1 * (skbarOf zb).1)]
  nlinarith [mul_pos hsb0 hsb0, mul_pos hzb0 hzb0, mul_pos hpos hpos,
    mul_le_mul_of_nonneg_left (le_of_eq hzbu) h1]

theorem socScaling_core (sb zb : ℝ × List ℝ)
    (hress : 0 < socRes sb) (hresz : 0 < socRes zb)
    (hs0 : 0 < sb.1) (hz0 : 0 < zb.1) (hlen : zb.2.length = sb.2.length) :
    0 < gammaOf sb zb ∧
    gammaOf sb zb ^ 2 = (1 / 2) * (1 + bdot (skbarOf sb) (skbarOf zb)) ∧
    0 < aOf sb zb ∧ sumsq (qOf sb zb) = aOf sb zb ^ 2 - 1 ∧
    (qOf sb zb).length = sb.2.length := by
  obtain ⟨hsb0, hsbu, hsbl, hsn⟩ := skbar_facts sb hress hs0
  obtain ⟨hzb0, hzbu, hzbl, hzn⟩ := skbar_facts zb hresz hz0
  have hdotpos := bdot_skbar_pos sb zb hress hresz hs0 hz0 hlen
  have harg : 0 < (1 / 2) * (1 + bdot (skbarOf sb) (skbarOf zb)) := by linarith
  have hg : 0 < gammaOf sb zb := Real.sqrt_pos.2 harg
  have hgsq : gammaOf sb zb ^ 2 =
      (1 / 2) * (1 + bdot (skbarOf sb) (skbarOf zb)) := Real.sq_sqrt harg.le
  have ha : 0 < aOf sb zb := by
    unfold aOf
    have : 0 < (skbarOf sb).1 + (skbarOf zb).1 := by linarith
    positivity
  refine ⟨hg, hgsq, ha, ?_, ?_⟩
  · unfold qOf
    rw [sumsq_lSMul, sumsq_lSub _ _ (by rw [hsbl, hzbl, hlen])]
    unfold aOf
    have hbd : bdot (skbarOf sb) (skbarOf zb) =
        (skbarOf sb).1 * (skbarOf zb).1 +
        dot (skbarOf sb).2 (skbarOf zb).2 := rfl
    have ht1 : dot (skbarOf sb).2 (skbarOf zb).2 =
        2 * gammaOf sb zb ^ 2 - 1 - (skbarOf sb).1 * (skbarOf zb).1 := by
      rw [hgsq, hbd]; ring
    rw [hsbu, hzbu, ht1]
    field_simp
    ring
  · unfold qOf
    rw [lSMul_length, lSub_length, hsbl, hzbl, hlen, min_self]

theorem socUpdateScaling_some (sb zb : ℝ × List ℝ) (sc : SOCScaling)
    (h : socUpdateScaling sb zb = some sc) :
    0 < socRes sb ∧ 0 < socRes zb ∧ sc.eta = Real.sqrt (etaSqOf sb zb) ∧
    sc.a = aOf sb zb ∧ sc.q = qOf sb zb := by
  unfold socUpdateScaling at h
  split_ifs at h with h1 h2
  push_neg at h1
  rw [Option.some.injEq] at h
  subst h
  exact ⟨h1.1, h1.2, rfl, rfl, rfl⟩

theorem lorentz_shared (sb zb : ℝ × List ℝ)
    (hress : 0 < socRes sb) (hresz : 0 < socRes zb)
    (hs0 : 0 < sb.1) (hz0 : 0 < zb.1) (hlen : zb.2.length = sb.2.length) :
    lorentzApply (aOf sb zb) (qOf sb zb) (skbarOf zb) =
    lorentzApply (aOf sb zb) (lSMul (-1) (qOf sb zb)) (skbarOf sb) := by
  obtain ⟨hsb0, hsbu, hsbl, hsn⟩ := skbar_facts sb hress hs0
  obtain ⟨hzb0, hzbu, hzbl, hzn⟩ := skbar_facts zb hresz hz0
  obtain ⟨hg, hgsq, ha, hqq, hql⟩ :=
    socScaling_core sb zb hress hresz hs0 hz0 hlen
  have hgne : gammaOf sb zb ≠ 0 := ne_of_gt hg
  have hane : 1 + aOf sb zb ≠ 0 := by positivity
  have hlen1 : (skbarOf sb).2.length = (skbarOf zb).2.length := by
    rw [hsbl, hzbl, hlen]
  have hdotz : dot (qOf sb zb) (skbarOf zb).2 =
      (1 / 2 / gammaOf sb zb) *
        (dot (skbarOf sb).2 (skbarOf zb).2 - sumsq (skbarOf zb).2) := by
    unfold qOf
    rw [dot_lSMul_left, dot_lSub_left _ _ _ hlen1]
    rfl
  have hdots : dot (qOf sb zb) (skbarOf sb).2 =
      (1 / 2 / gammaOf sb zb) *
        (sumsq (skbarOf sb).2 - dot (skbarOf sb).2 (skbarOf zb).2) := by
    unfold qOf
    rw [dot_lSMul_left, dot_lSub_left _ _ _ hlen1,
      dot_comm (skbarOf zb).2 (skbarOf sb).2]
    rfl
  have haval : aOf sb zb =
      (1 / 2 / gammaOf sb zb) * ((skbarOf sb).1 + (skbarOf zb).1) := rfl
  have hsz : lSMul (2 * gammaOf sb zb) (qOf sb zb) =
      lSub (skbarOf sb).2 (skbarOf zb).2 := by
    unfold qOf
    rw [lSMul_lSMul]
    rw [show 2 * gammaOf sb zb * (1 / 2 / gammaOf sb zb) = 1 by field_simp]
    exact lSMul_one _
  have hs1 : (skbarOf sb).2 =
      lAdd (skbarOf zb).2 (lSMul (2 * gammaOf sb zb) (qOf sb zb)) := by
    rw [hsz, lAdd_lSub_cancel _ _ hlen1.symm]
  have ht1 : dot (skbarOf sb).2 (skbarOf zb).2 =
      2 * gammaOf sb zb ^ 2 - 1 - (skbarOf sb).1 * (skbarOf zb).1 := by
    have hbd : bdot (skbarOf sb) (skbarOf zb) =
        (skbarOf sb).1 * (skbarOf zb).1 +
        dot (skbarOf sb).2 (skbarOf zb).2 := rfl
    have := hgsq
    rw [hbd] at this
    linarith
  have h2g : 2 * gammaOf sb zb + ((skbarOf sb).1 + (skbarOf zb).1) ≠ 0 := by
    have : 0 < 2 * gammaOf sb zb + ((skbarOf sb).1 + (skbarOf zb).1) := by
      positivity
    exact ne_of_gt this
  have hane2 : 1 + 1 / 2 / gammaOf sb zb *
      ((skbarOf sb).1 + (skbarOf zb).1) ≠ 0 := by
    rw [← haval]; exact hane
  simp only [lorentzApply, dot_lSMul_left, lSMul_lSMul, Prod.mk.injEq]
  rw [hdotz, hdots]
  constructor
  · rw [haval, hsbu, hzbu]
    field_simp
    ring
  · rw [hsbu, hzbu, ht1, haval, hs1, lAdd_assoc, lAdd_lSMul_same]
    congr 1
    congr 1
    field_simp
    ring

/-- Vector sum of conic vectors: the updates `z += step * dz`,
`s += step * ds` at the end of an iteration of solve (ecos.cpp:903-909). -/
def cvAdd (u v : CVec ℝ) : CVec ℝ :=
  ⟨lAdd u.lp v.lp, List.zipWith bAdd u.socs v.socs⟩

/-- Scalar multiple of a conic vector (`step * dz`). -/
def cvSMul (c : ℝ) (u : CVec ℝ) : CVec ℝ :=
  ⟨lSMul c u.lp, u.socs.map (bSMul c)⟩

theorem scaleBlk_bSMul (sc : SOCScaling) (c : ℝ) (x : ℝ × List ℝ) :
    scaleBlk sc (bSMul c x) = bSMul c (scaleBlk sc x) := by
  rw [scaleBlk_eq_lorentz, scaleBlk_eq_lorentz, lorentzApply_smul,
    bSMul_bSMul, bSMul_bSMul, mul_comm]

theorem scaleBlk_bAdd (sc : SOCScaling) (x y : ℝ × List ℝ)
    (hlen : x.2.length = y.2.length) :
    scaleBlk sc (bAdd x y) = bAdd (scaleBlk sc x) (scaleBlk sc y) := by
  rw [scaleBlk_eq_lorentz, scaleBlk_eq_lorentz, scaleBlk_eq_lorentz,
    lorentzApply_add sc.a sc.q x y hlen, bSMul_bAdd]

theorem scaleBlk_len (sc : SOCScaling) (x : ℝ × List ℝ)
    (hlen : x.2.length = sc.q.length) :
    (scaleBlk sc x).2.length = x.2.length := by
  show (lSMul sc.eta (lAdd x.2 (lSMul _ sc.q))).length = x.2.length
  rw [lSMul_length, lAdd_length, lSMul_length, hlen, min_self]

theorem scaleBlk_int (sc : SOCScaling) (x : ℝ × List ℝ)
    (hunit : sumsq sc.q = sc.a ^ 2 - 1) (ha : 0 < sc.a) (heta : 0 < sc.eta)
    (hlen : x.2.length = sc.q.length) (hx : blkInt x) :
    blkInt (scaleBlk sc x) := by
  rw [scaleBlk_eq_lorentz]
  exact bSMul_int sc.eta heta _ (lorentzApply_int sc.a sc.q x hunit ha hlen hx)

theorem scaleBlk_int_rev (sc : SOCScaling) (x : ℝ × List ℝ)
    (hunit : sumsq sc.q = sc.a ^ 2 - 1) (ha : 0 < sc.a) (heta : 0 < sc.eta)
    (hlen : x.2.length = sc.q.length) (hx : blkInt (scaleBlk sc x)) :
    blkInt x := by
  have hunit2 : sumsq (lSMul (-1) sc.q) = sc.a ^ 2 - 1 := by
    rw [sumsq_lSMul, hunit]; ring
  have hqlen : (lSMul (-1) sc.q).length = sc.q.length := lSMul_length _ _
  have hkey : lorentzApply sc.a (lSMul (-1) sc.q) (lorentzApply sc.a sc.q x)
      = x := by
    have hback : lSMul (-1) (lSMul (-1) sc.q) = sc.q := by
      rw [lSMul_lSMul]; norm_num [lSMul_one]
    have := lorentzApply_inverse sc.a (lSMul (-1) sc.q) x hunit2
      (by positivity) (by rw [hqlen]; exact hlen)
    rwa [hback] at this
  have h1 : blkInt (lorentzApply sc.a (lSMul (-1) sc.q) (scaleBlk sc x)) := by
    refine lorentzApply_int sc.a (lSMul (-1) sc.q) _ hunit2 ha ?_ hx
    rw [hqlen, scaleBlk_len sc x hlen]
    exact hlen
  rw [scaleBlk_eq_lorentz, lorentzApply_smul, hkey] at h1
  have h2 := bSMul_int (1 / sc.eta) (by positivity) _ h1
  rwa [bSMul_bSMul, one_div_mul_cancel (ne_of_gt heta), bSMul_one] at h2

/-- The facts used of a successful per-cone NT scaling update: the scale
`eta` is positive, `(a, q)` is a unit hyperbolic point with positive head
and the right length, and applying the scaling twice to the z-block gives
back the s-block (`W^2 z = s`, the defining NT property). -/
theorem socScaling_main (sb zb : ℝ × List ℝ) (sc : SOCScaling)
    (h : socUpdateScaling sb zb = some sc)
    (hs : blkInt sb) (hz : blkInt zb) (hlen : zb.2.length = sb.2.length) :
    0 < sc.eta ∧ 0 < sc.a ∧ sumsq sc.q = sc.a ^ 2 - 1 ∧
    sc.q.length = sb.2.length ∧ scaleBlk sc (scaleBlk sc zb) = sb := by
  obtain ⟨hress, hresz, heta, hA, hQ⟩ := socUpdateScaling_some sb zb sc h
  obtain ⟨hg, hgsq, ha, hqq, hql⟩ :=
    socScaling_core sb zb hress hresz hs.1 hz.1 hlen
  obtain ⟨hsb0, hsbu, hsbl, hsn⟩ := skbar_facts sb hress hs.1
  obtain ⟨hzb0, hzbu, hzbl, hzn⟩ := skbar_facts zb hresz hz.1
  have hetasq : 0 ≤ etaSqOf sb zb := by
    unfold etaSqOf
    exact div_nonneg hsn.le hzn.le
  have hetapos : 0 < sc.eta := by
    rw [heta]
    apply Real.sqrt_pos.2
    unfold etaSqOf
    exact div_pos hsn hzn
  have hApos : 0 < sc.a := by rw [hA]; exact ha
  have hQunit : sumsq sc.q = sc.a ^ 2 - 1 := by rw [hQ, hA]; exact hqq
  have hQlen : sc.q.length = sb.2.length := by rw [hQ]; exact hql
  refine ⟨hetapos, hApos, hQunit, hQlen, ?_⟩
  have step1 : scaleBlk sc (scaleBlk sc zb) =
      bSMul (sc.eta * sc.eta)
        (lorentzApply sc.a sc.q (lorentzApply sc.a sc.q zb)) := by
    rw [scaleBlk_eq_lorentz, scaleBlk_eq_lorentz, lorentzApply_smul,
      bSMul_bSMul]
  have hee : sc.eta * sc.eta = snormOf sb / snormOf zb := by
    rw [heta, Real.mul_self_sqrt hetasq]
    rfl
  have hinner : lorentzApply sc.a sc.q (lorentzApply sc.a sc.q zb) =
      bSMul (snormOf zb) (skbarOf sb) := by
    conv_lhs => rw [show zb = bSMul (snormOf zb) (skbarOf zb) from
      (bSMul_bdiv_cancel (snormOf zb) (ne_of_gt hzn) zb).symm]
    rw [lorentzApply_smul, lorentzApply_smul, hA, hQ,
      lorentz_shared sb zb hress hresz hs.1 hz.1 hlen,
      lorentzApply_inverse (aOf sb zb) (qOf sb zb) (skbarOf sb) hqq
        (by positivity) (by rw [hsbl, ← hql])]
  rw [step1, hee, hinner, bSMul_bSMul, div_mul_cancel₀ _ (ne_of_gt hzn)]
  exact bSMul_bdiv_cancel (snormOf sb) (ne_of_gt hsn) sb

/-- The `rho`/`sigma` construction of the conic line search is, up to the
`1/lknorm` prefactor, the inverse hyperbolic rotation at the normalized
point `lkbar = lambda_k / lknorm` (compare ecos.cpp:1089-1104 with
ecos.cpp:337-353). -/
theorem lsRho_eq (lb d : ℝ × List ℝ) (k : ℝ)
    (hk : k = Real.sqrt (lb.1 ^ 2 - sumsq lb.2))
    (hne : 1 + lb.1 / k ≠ 0) :
    lsRho lb d = bSMul (1 / k)
      (lorentzApply (bdiv lb k).1 (lSMul (-1) (bdiv lb k).2) d) := by
  subst hk
  simp only [lsRho, lorentzApply, bSMul, bdiv, dot_lSMul_left, lSMul_lSMul,
    Prod.mk.injEq]
  constructor
  · ring
  · rw [lSub_eq_lAdd_neg, lSMul_lSMul, lSMul_lAdd, lSMul_lAdd,
      lSMul_lSMul, lSMul_lSMul]
    congr 2
    field_simp at hne ⊢
    ring

/-- Interiority is preserved by a step `lb + step * d` whenever the step
is strictly below the per-cone line-search bound
`1 / (||rho_1|| - rho_0)` built from `rho = lsRho lb d`. -/
theorem soc_step_interior (lb d : ℝ × List ℝ) (step : ℝ)
    (hl : blkInt lb) (hlen : d.2.length = lb.2.length) (hstep : 0 < step)
    (hbound : step * (tnorm (lsRho lb d).2 - (lsRho lb d).1) < 1) :
    blkInt (bAdd lb (bSMul step d)) := by
  have hres : 0 < socRes lb := ((blkInt_iff_res lb).1 hl).2
  have hres2 : 0 < lb.1 ^ 2 - sumsq lb.2 := by
    have : socRes lb = lb.1 * lb.1 - sumsq lb.2 := rfl
    nlinarith [hres]
  set k := Real.sqrt (lb.1 ^ 2 - sumsq lb.2) with hkdef
  have hk : 0 < k := Real.sqrt_pos.2 hres2
  have hk2 : k ^ 2 = lb.1 ^ 2 - sumsq lb.2 := Real.sq_sqrt hres2.le
  have hl0 : 0 < lb.1 := hl.1
  have hbarpos : 0 < (bdiv lb k).1 := div_pos hl0 hk
  have hbarlen : (bdiv lb k).2.length = lb.2.length := bdiv_len lb k
  have hunit : sumsq (bdiv lb k).2 = (bdiv lb k).1 ^ 2 - 1 := by
    show sumsq (lb.2.map (fun x => x / k)) = (lb.1 / k) ^ 2 - 1
    rw [sumsq_map_div, div_pow]
    rw [show sumsq lb.2 = lb.1 ^ 2 - (lb.1 ^ 2 - sumsq lb.2) by ring, ← hk2]
    field_simp
  have hne : 1 + lb.1 / k ≠ 0 := by positivity
  have hrho := lsRho_eq lb d k rfl hne
  have hdlen : d.2.length = (bdiv lb k).2.length := by
    rw [hbarlen]; exact hlen
  have hd : lorentzApply (bdiv lb k).1 (bdiv lb k).2
      (bSMul k (lsRho lb d)) = d := by
    rw [hrho, bSMul_bSMul, mul_one_div, div_self (ne_of_gt hk), bSMul_one]
    exact lorentzApply_inverse (bdiv lb k).1 (bdiv lb k).2 d hunit
      (by positivity) hdlen
  have hlb : lb = bSMul k (lorentzApply (bdiv lb k).1 (bdiv lb k).2
      (1, lSMul 0 (bdiv lb k).2)) := by
    rw [lorentzApply_unit (bdiv lb k).1 (bdiv lb k).2 (bdiv lb k).2 rfl]
    exact (bSMul_bdiv_cancel k (ne_of_gt hk) lb).symm
  have hrholen : (lsRho lb d).2.length = (bdiv lb k).2.length := by
    show (lSMul _ (lSub d.2 (lSMul _ (bdiv lb _).2))).length = _
    rw [lSMul_length, lSub_length, lSMul_length, hdlen, min_self]
  have hsplit : bAdd lb (bSMul step d) =
      bSMul k (lorentzApply (bdiv lb k).1 (bdiv lb k).2
        (bAdd (1, lSMul 0 (bdiv lb k).2) (bSMul step (lsRho lb d)))) := by
    conv_lhs => rw [hlb, ← hd]
    rw [lorentzApply_smul, bSMul_bSMul, mul_comm step k, ← bSMul_bSMul,
      ← bSMul_bAdd, ← lorentzApply_smul,
      ← lorentzApply_add (bdiv lb k).1 (bdiv lb k).2 _ _
        (by show (lSMul 0 (bdiv lb k).2).length = (lSMul step (lsRho lb d).2).length
            rw [lSMul_length, lSMul_length, hrholen])]
  rw [hsplit]
  apply bSMul_int k hk
  apply lorentzApply_int (bdiv lb k).1 (bdiv lb k).2 _ hunit hbarpos
  · show (lAdd (lSMul 0 (bdiv lb k).2) (lSMul step (lsRho lb d).2)).length = _
    rw [lAdd_length, lSMul_length, lSMul_length, hrholen, min_self]
  · have hcore : bAdd (1, lSMul 0 (bdiv lb k).2) (bSMul step (lsRho lb d)) =
        (1 + step * (lsRho lb d).1, lSMul step (lsRho lb d).2) := by
      show (1 + step * (lsRho lb d).1,
        lAdd (lSMul 0 (bdiv lb k).2) (lSMul step (lsRho lb d).2)) = _
      rw [lAdd_lSMul_zero_left _ _ (by rw [lSMul_length, hrholen])]
    rw [hcore]
    have ht0 : 0 ≤ tnorm (lsRho lb d).2 := Real.sqrt_nonneg _
    have ht2 : tnorm (lsRho lb d).2 ^ 2 = sumsq (lsRho lb d).2 :=
      Real.sq_sqrt (sumsq_nonneg _)
    constructor
    · show 0 < 1 + step * (lsRho lb d).1
      nlinarith [mul_nonneg hstep.le ht0]
    · show sumsq (lSMul step (lsRho lb d).2) < (1 + step * (lsRho lb d).1) ^ 2
      rw [sumsq_lSMul, ← ht2]
      nlinarith [mul_nonneg hstep.le ht0]

/-- The SOC stage of an accepted update step: if every cone's NT update
succeeded, both iterates are interior, and the step is strictly below the
conic line-search value computed on `lambda = W z`, the W-scaled `ds` and
`W dz`, then every updated s-block `s + step * (W ds)` and z-block
`z + step * dz` is interior. -/
theorem soc_blocks_int (step : ℝ) (hstep : 0 < step) :
    ∀ (ss zs : List (ℝ × List ℝ)) (scs : List SOCScaling)
      (dss dzs : List (ℝ × List ℝ)) (js : List ℝ) (alpha : ℝ),
    socUpdateList ss zs = some scs →
    (∀ b ∈ ss, blkInt b) → (∀ b ∈ zs, blkInt b) →
    List.Forall₂ (fun (u v : ℝ × List ℝ) => u.2.length = v.2.length) zs ss →
    List.Forall₂ (fun (u v : ℝ × List ℝ) => u.2.length = v.2.length) dss ss →
    List.Forall₂ (fun (u v : ℝ × List ℝ) => u.2.length = v.2.length) dzs ss →
    js.length = ss.length →
    step < socLineSearch (List.zipWith scaleBlk scs zs) dss
      (List.zipWith scaleBlk scs dzs) js alpha →
    (∀ b ∈ List.zipWith bAdd ss
        (List.map (bSMul step) (List.zipWith scaleBlk scs dss)), blkInt b) ∧
    (∀ b ∈ List.zipWith bAdd zs (List.map (bSMul step) dzs), blkInt b) := by
  intro ss
  induction ss with
  | nil =>
    intro zs scs dss dzs js alpha hup hsint hzint hzl hdsl hdzl hjl hls
    have hz0 : zs = [] :=
      List.length_eq_zero.1 (by simpa using List.Forall₂.length_eq hzl)
    subst hz0
    constructor <;> intro b hbm <;> simp at hbm
  | cons sb ss ih =>
    intro zs scs dss dzs js alpha hup hsint hzint hzl hdsl hdzl hjl hls
    cases zs with
    | nil => exact absurd (List.Forall₂.length_eq hzl) (by simp)
    | cons zb zs =>
    cases dss with
    | nil => exact absurd (List.Forall₂.length_eq hdsl) (by simp)
    | cons db dss =>
    cases dzs with
    | nil => exact absurd (List.Forall₂.length_eq hdzl) (by simp)
    | cons eb dzs =>
    cases js with
    | nil => exact absurd hjl (by simp)
    | cons j js =>
    obtain ⟨hzlen, hzl⟩ := List.forall₂_cons.1 hzl
    obtain ⟨hdslen, hdsl⟩ := List.forall₂_cons.1 hdsl
    obtain ⟨hdzlen, hdzl⟩ := List.forall₂_cons.1 hdzl
    rw [socUpdateList] at hup
    rcases hsc : socUpdateScaling sb zb with _ | sc
    · rw [hsc] at hup
      rcases hrest : socUpdateList ss zs with _ | rest <;>
        rw [hrest] at hup <;> simp at hup
    rcases hrest : socUpdateList ss zs with _ | rest
    · rw [hsc, hrest] at hup; simp at hup
    rw [hsc, hrest] at hup
    simp only [Option.some.injEq] at hup
    subst hup
    have hsbint : blkInt sb := hsint sb (List.mem_cons_self _ _)
    have hzbint : blkInt zb := hzint zb (List.mem_cons_self _ _)
    obtain ⟨heta, ha, hunit, hqlen, hWW⟩ :=
      socScaling_main sb zb sc hsc hsbint hzbint hzlen
    have hzblen : zb.2.length = sc.q.length := by rw [hqlen]; exact hzlen
    have hdblen : db.2.length = sc.q.length := by rw [hqlen]; exact hdslen
    have heblen : eb.2.length = sc.q.length := by rw [hqlen]; exact hdzlen
    have hlamint : blkInt (scaleBlk sc zb) :=
      scaleBlk_int sc zb hunit ha heta hzblen hzbint
    have hlamlen : (scaleBlk sc zb).2.length = zb.2.length :=
      scaleBlk_len sc zb hzblen
    have hlamres : 0 < (scaleBlk sc zb).1 ^ 2 - sumsq (scaleBlk sc zb).2 := by
      obtain ⟨h1, h2⟩ := hlamint
      nlinarith
    simp only [List.zipWith_cons_cons, socLineSearch] at hls
    rw [if_neg (not_le.2 hlamres)] at hls
    set rhon := tnorm (lsRho (scaleBlk sc zb) db).2 -
      (lsRho (scaleBlk sc zb) db).1 with hrhon
    set sigman := tnorm (lsRho (scaleBlk sc zb) (scaleBlk sc eb)).2 -
      (lsRho (scaleBlk sc zb) (scaleBlk sc eb)).1 with hsigman
    set cs := max (max 0 sigman) (max rhon j) with hcsdef
    have hchain : step < (if cs ≠ 0 then min (1 / cs) alpha else alpha) :=
      lt_of_lt_of_le hls (socLineSearch_le _ _ _ _ _)
    have hb : ∀ r : ℝ, r ≤ cs → 0 < r → step * r < 1 := by
      intro r hr hrpos
      have hcspos : 0 < cs := lt_of_lt_of_le hrpos hr
      rw [if_pos (ne_of_gt hcspos)] at hchain
      have hs2 : step < 1 / cs := lt_of_lt_of_le hchain (min_le_left _ _)
      have h1 : step * cs < 1 := (lt_div_iff hcspos).1 hs2
      calc step * r ≤ step * cs := mul_le_mul_of_nonneg_left hr hstep.le
        _ < 1 := h1
    have hrhobd : step * rhon < 1 := by
      rcases le_or_lt rhon 0 with hc | hc
      · nlinarith
      · exact hb rhon (le_trans (le_max_left _ _) (le_max_right _ _)) hc
    have hsigbd : step * sigman < 1 := by
      rcases le_or_lt sigman 0 with hc | hc
      · nlinarith
      · exact hb sigman (le_trans (le_max_right 0 _) (le_max_left _ _)) hc
    rw [hrhon] at hrhobd
    rw [hsigman] at hsigbd
    obtain ⟨ihs, ihz⟩ := ih zs rest dss dzs js _ hrest
      (fun b hbm => hsint b (List.mem_cons_of_mem _ hbm))
      (fun b hbm => hzint b (List.mem_cons_of_mem _ hbm))
      hzl hdsl hdzl (by simpa using hjl) hls
    have hshead : blkInt (bAdd sb (bSMul step (scaleBlk sc db))) := by
      have happ := soc_step_interior (scaleBlk sc zb) db step hlamint
        (by rw [hlamlen, hzlen]; exact hdslen) hstep hrhobd
      have htr : scaleBlk sc (bAdd (scaleBlk sc zb) (bSMul step db)) =
          bAdd sb (bSMul step (scaleBlk sc db)) := by
        rw [scaleBlk_bAdd sc _ _
          (by rw [hlamlen, hzlen, bSMul_len]; exact hdslen.symm),
          hWW, scaleBlk_bSMul]
      rw [← htr]
      refine scaleBlk_int sc _ hunit ha heta ?_ happ
      show (lAdd (scaleBlk sc zb).2 (bSMul step db).2).length = sc.q.length
      rw [lAdd_length, hlamlen, bSMul_len, hzblen, hdblen, min_self]
    have hzhead : blkInt (bAdd zb (bSMul step eb)) := by
      have happ := soc_step_interior (scaleBlk sc zb) (scaleBlk sc eb) step
        hlamint
        (by rw [scaleBlk_len sc eb heblen, hlamlen]
            exact hdzlen.trans hzlen.symm)
        hstep hsigbd
      have htr : scaleBlk sc (bAdd zb (bSMul step eb)) =
          bAdd (scaleBlk sc zb) (bSMul step (scaleBlk sc eb)) := by
        rw [scaleBlk_bAdd sc _ _
          (by rw [bSMul_len]; exact hzlen.trans hdzlen.symm),
          scaleBlk_bSMul]
      refine scaleBlk_int_rev sc _ hunit ha heta ?_ ?_
      · show (lAdd zb.2 (bSMul step eb).2).length = sc.q.length
        rw [lAdd_length, bSMul_len, hzblen, heblen, min_self]
      · rw [htr]; exact happ
    simp only [List.zipWith_cons_cons, List.map_cons]
    constructor
    · intro b hbm
      rcases List.mem_cons.1 hbm with rfl | hbm2
      · exact hshead
      · exact ihs b hbm2
    · intro b hbm
      rcases List.mem_cons.1 hbm with rfl | hbm2
      · exact hzhead
      · exact ihz b hbm2

/-- The LP scaling `w = sqrt(s ./ z)` built by updateScalings
(ecos.cpp:262-266). -/
def wlpOf (slp zlp : List ℝ) : List ℝ :=
  (List.zipWith (· / ·) slp zlp).map Real.sqrt

/-- The LP part of `lambda = W z` (ecos.cpp:332-336). -/
def lamlpOf (slp zlp : List ℝ) : List ℝ :=
  List.zipWith (· * ·) (wlpOf slp zlp) zlp

/-- The LP stage of an accepted update step: when the step is below every
binding quotient bound of the LP line search (the `ds ./ lambda` and
`(W dz) ./ lambda` minima), all updated LP entries `s + step * (w .* ds)`
and `z + step * dz` stay positive. -/
theorem lp_blocks_pos (step : ℝ) (hstep : 0 < step) :
    ∀ (slp zlp dslp dzlp : List ℝ),
    zlp.length = slp.length → dslp.length = slp.length →
    dzlp.length = slp.length →
    (∀ x ∈ slp, 0 < x) → (∀ x ∈ zlp, 0 < x) →
    (∀ d l : ℝ, (d, l) ∈ List.zip dslp (lamlpOf slp zlp) →
      0 < l → d < 0 → step < l / (-d)) →
    (∀ d l : ℝ, (d, l) ∈ List.zip
        (List.zipWith (· * ·) (wlpOf slp zlp) dzlp) (lamlpOf slp zlp) →
      0 < l → d < 0 → step < l / (-d)) →
    (∀ x ∈ lAdd slp
        (lSMul step (List.zipWith (· * ·) (wlpOf slp zlp) dslp)), 0 < x) ∧
    (∀ x ∈ lAdd zlp (lSMul step dzlp), 0 < x) := by
  intro slp
  induction slp with
  | nil =>
    intro zlp dslp dzlp hzl hdsl hdzl hs hz hbds hbdz
    have hz0 : zlp = [] := List.length_eq_zero.1 hzl
    subst hz0
    constructor <;> intro x hx <;> simp [lAdd] at hx
  | cons a slp ih =>
    intro zlp dslp dzlp hzl hdsl hdzl hs hz hbds hbdz
    cases zlp with
    | nil => simp at hzl
    | cons b zlp =>
    cases dslp with
    | nil => simp at hdsl
    | cons d dslp =>
    cases dzlp with
    | nil => simp at hdzl
    | cons e dzlp =>
    have ha : 0 < a := hs a (List.mem_cons_self _ _)
    have hb : 0 < b := hz b (List.mem_cons_self _ _)
    set w := Real.sqrt (a / b) with hwdef
    have hw : 0 < w := Real.sqrt_pos.2 (div_pos ha hb)
    have hww : w * w = a / b := Real.mul_self_sqrt (div_pos ha hb).le
    have hwwb : w * w * b = a := by
      rw [hww, div_mul_cancel₀ _ (ne_of_gt hb)]
    simp only [wlpOf, lamlpOf, List.zipWith_cons_cons, List.map_cons,
      List.zip_cons_cons] at hbds hbdz ⊢
    obtain ⟨ihs, ihz⟩ := ih zlp dslp dzlp (by simpa using hzl)
      (by simpa using hdsl) (by simpa using hdzl)
      (fun x hx => hs x (List.mem_cons_of_mem _ hx))
      (fun x hx => hz x (List.mem_cons_of_mem _ hx))
      (fun d' l' hm => hbds d' l' (List.mem_cons_of_mem _ hm))
      (fun d' l' hm => hbdz d' l' (List.mem_cons_of_mem _ hm))
    have hshead : 0 < a + step * (w * d) := by
      rcases le_or_lt 0 d with hd | hd
      · have : 0 ≤ step * (w * d) := by positivity
        linarith
      · have hbound := hbds d (w * b) (List.mem_cons_self _ _)
          (mul_pos hw hb) hd
        have h1 : step * (-d) < w * b := (lt_div_iff (by linarith)).1 hbound
        have h2 : 0 < w * (w * b - step * (-d)) := mul_pos hw (by linarith)
        nlinarith
    have hzhead : 0 < b + step * e := by
      rcases le_or_lt 0 e with he | he
      · have : 0 ≤ step * e := by positivity
        linarith
      · have hwe : w * e < 0 := mul_neg_of_pos_of_neg hw he
        have hbound := hbdz (w * e) (w * b) (List.mem_cons_self _ _)
          (mul_pos hw hb) hwe
        have heq : w * b / -(w * e) = b / (-e) := by
          rw [show -(w * e) = w * (-e) by ring,
            mul_div_mul_left _ _ (ne_of_gt hw)]
        rw [heq] at hbound
        have h1 : step * (-e) < b := (lt_div_iff (by linarith)).1 hbound
        linarith
    constructor
    · intro x hx
      rcases List.mem_cons.1 (by simpa [lAdd, lSMul] using hx) with h | h
      · rw [h] at *
        exact hshead
      · exact ihs x (by simpa [lAdd, lSMul] using h)
    · intro x hx
      rcases List.mem_cons.1 (by simpa [lAdd, lSMul] using hx) with h | h
      · rw [h] at *
        exact hzhead
      · exact ihz x (by simpa [lAdd, lSMul] using h)

/-- C4 (amended): the update step at the end of an iteration of solve
(ecos.cpp:894-910) keeps the iterate in the cone interior and tau and
kappa positive PROVIDED the lower saturation of the line search is
inactive, i.e. stepmin <= the unsaturated line-search value (the claim is
false without this proviso: the `std::clamp(alpha, stepmin, stepmax)` at
ecos.cpp:1119 can force a step beyond the largest safe one).  Under that
proviso, for the step `gamma * lineSearch(...)` applied exactly as in the
source (`s += step * W ds_by_W`, `z += step * dz`,
`tau += step * dtau`, `kap += step * dkap`, with lineSearch called on
`lambda`, `ds_by_W` and `W dz`): tau and kappa stay positive, every LP
entry of s and z stays positive, and every SOC block of s and z stays in
the cone interior.  The indeterminate per-cone `conic_step` seeds (junk)
only ever shrink the returned step, so the result holds for every junk. -/
theorem accepted_iterate_interior (s z ds dz : CVec ℝ)
    (P : ScalingState) (lambda : CVec ℝ) (tau dtau kap dkap : ℝ)
    (junk : List ℝ)
    (hup : updateScalings s z = some (P, lambda))
    (hs : interiorK s) (hz : interiorK z)
    (htau : 0 < tau) (hkap : 0 < kap)
    (hzlp : z.lp.length = s.lp.length)
    (hdslp : ds.lp.length = s.lp.length)
    (hdzlp : dz.lp.length = s.lp.length)
    (hzsoc : List.Forall₂
      (fun (u v : ℝ × List ℝ) => u.2.length = v.2.length) z.socs s.socs)
    (hdssoc : List.Forall₂
      (fun (u v : ℝ × List ℝ) => u.2.length = v.2.length) ds.socs s.socs)
    (hdzsoc : List.Forall₂
      (fun (u v : ℝ × List ℝ) => u.2.length = v.2.length) dz.socs s.socs)
    (hjunk : junk.length = s.socs.length)
    (hclamp : (settings.stepmin : ℝ) ≤
      lineSearchUnclamped lambda ds (scaleVec P dz) tau dtau kap dkap junk) :
    0 < tau + (settings.gamma : ℝ) *
      lineSearch lambda ds (scaleVec P dz) tau dtau kap dkap junk * dtau ∧
    0 < kap + (settings.gamma : ℝ) *
      lineSearch lambda ds (scaleVec P dz) tau dtau kap dkap junk * dkap ∧
    interiorK (cvAdd s (cvSMul ((settings.gamma : ℝ) *
      lineSearch lambda ds (scaleVec P dz) tau dtau kap dkap junk)
      (scaleVec P ds))) ∧
    interiorK (cvAdd z (cvSMul ((settings.gamma : ℝ) *
      lineSearch lambda ds (scaleVec P dz) tau dtau kap dkap junk) dz)) := by
  rw [updateScalings] at hup
  rcases hsoc : socUpdateList s.socs z.socs with _ | socs
  · rw [hsoc] at hup; simp at hup
  rw [hsoc] at hup
  simp only [Option.some.injEq, Prod.mk.injEq] at hup
  obtain ⟨hP, hlam⟩ := hup
  have hPw : P.lp_w = wlpOf s.lp z.lp := by rw [← hP]; rfl
  have hPsocs : P.socs = socs := by rw [← hP]
  have hlamlp : lambda.lp = lamlpOf s.lp z.lp := by rw [← hlam]; rfl
  have hlamsocs : lambda.socs = List.zipWith scaleBlk socs z.socs := by
    rw [← hlam]
    rfl
  have hg : (0 : ℝ) < (settings.gamma : ℝ) := by norm_num [settings]
  have hg1 : (settings.gamma : ℝ) < 1 := by norm_num [settings]
  have hsm : (0 : ℝ) < (settings.stepmin : ℝ) := by norm_num [settings]
  have hsx : (settings.stepmin : ℝ) ≤ (settings.stepmax : ℝ) := by
    norm_num [settings]
  set dzW := scaleVec P dz with hdzW
  have hdzWlp : dzW.lp = List.zipWith (· * ·) (wlpOf s.lp z.lp) dz.lp := by
    rw [hdzW, ← hPw]
    rfl
  have hdzWsocs : dzW.socs = List.zipWith scaleBlk socs dz.socs := by
    rw [hdzW, ← hPsocs]
    rfl
  set U := lineSearchUnclamped lambda ds dzW tau dtau kap dkap junk with hUdef
  set L := lineSearch lambda ds dzW tau dtau kap dkap junk with hLdef
  set step := (settings.gamma : ℝ) * L with hstepdef
  have hL : L = min U (settings.stepmax : ℝ) := by
    rw [hLdef, lineSearch, ← hUdef]
    exact max_eq_right (le_min hclamp hsx)
  have hU0 : 0 < U := lt_of_lt_of_le hsm hclamp
  have hL0 : 0 < L := by
    rw [hL]
    exact lt_min hU0 (lt_of_lt_of_le hsm hsx)
  have hstep0 : 0 < step := mul_pos hg hL0
  have hLU : L ≤ U := by rw [hL]; exact min_le_left _ _
  have hstepU : step < U := by
    rw [hstepdef]
    calc (settings.gamma : ℝ) * L ≤ (settings.gamma : ℝ) * U :=
          mul_le_mul_of_nonneg_left hLU hg.le
      _ < 1 * U := by nlinarith
      _ = U := one_mul U
  set a0 := lpAlpha lambda.lp ds.lp dzW.lp with ha0
  set a1 := if -tau / dtau > 0 ∧ -tau / dtau < a0 then -tau / dtau else a0
    with ha1
  set a2 := if -kap / dkap > 0 ∧ -kap / dkap < a1 then -kap / dkap else a1
    with ha2
  have hUsoc : U = socLineSearch lambda.socs ds.socs dzW.socs junk a2 := by
    rw [hUdef]
    rfl
  have hUa2 : U ≤ a2 := by
    rw [hUsoc]
    exact socLineSearch_le _ _ _ _ _
  have ha21 : a2 ≤ a1 := by
    rw [ha2]
    split_ifs with h
    · exact le_of_lt h.2
    · exact le_rfl
  have ha10 : a1 ≤ a0 := by
    rw [ha1]
    split_ifs with h
    · exact le_of_lt h.2
    · exact le_rfl
  have hstepa0 : step < a0 :=
    lt_of_lt_of_le hstepU (le_trans hUa2 (le_trans ha21 ha10))
  have htau' : 0 < tau + step * dtau := by
    rcases le_or_lt 0 dtau with hd | hd
    · have h0 : 0 ≤ step * dtau := mul_nonneg hstep0.le hd
      linarith
    · have hpos : 0 < -tau / dtau := by
        apply div_pos_iff.2
        right
        constructor <;> linarith
      have h1 : a1 ≤ -tau / dtau := by
        rw [ha1]
        split_ifs with h
        · exact le_rfl
        · push_neg at h
          exact h hpos
      have h2 : step < -tau / dtau :=
        lt_of_lt_of_le hstepU (le_trans hUa2 (le_trans ha21 h1))
      have h3 : -tau / dtau = tau / (-dtau) := by rw [neg_div, div_neg]
      rw [h3] at h2
      have h4 : step * (-dtau) < tau := (lt_div_iff (by linarith)).1 h2
      have h5 : step * (-dtau) = -(step * dtau) := by ring
      linarith
  have hkap' : 0 < kap + step * dkap := by
    rcases le_or_lt 0 dkap with hd | hd
    · have h0 : 0 ≤ step * dkap := mul_nonneg hstep0.le hd
      linarith
    · have hpos : 0 < -kap / dkap := by
        apply div_pos_iff.2
        right
        constructor <;> linarith
      have h1 : a2 ≤ -kap / dkap := by
        rw [ha2]
        split_ifs with h
        · exact le_rfl
        · push_neg at h
          exact h hpos
      have h2 : step < -kap / dkap :=
        lt_of_lt_of_le hstepU (le_trans hUa2 h1)
      have h3 : -kap / dkap = kap / (-dkap) := by rw [neg_div, div_neg]
      rw [h3] at h2
      have h4 : step * (-dkap) < kap := (lt_div_iff (by linarith)).1 h2
      have h5 : step * (-dkap) = -(step * dkap) := by ring
      linarith
  have hlpmain := lp_blocks_pos step hstep0 s.lp z.lp ds.lp dz.lp
    hzlp hdslp hdzlp hs.1 hz.1
    (by
      intro d l hm hl hd
      rw [← hlamlp] at hm
      have hle := lpAlpha_le_ds lambda.lp ds.lp dzW.lp d l hm hl hd
      rw [← ha0] at hle
      exact lt_of_lt_of_le hstepa0 hle)
    (by
      intro d l hm hl hd
      rw [← hlamlp, ← hdzWlp] at hm
      have hle := lpAlpha_le_dz lambda.lp ds.lp dzW.lp d l hm hl hd
      rw [← ha0] at hle
      exact lt_of_lt_of_le hstepa0 hle)
  have hsocmain := soc_blocks_int step hstep0 s.socs z.socs socs
    ds.socs dz.socs junk a2 hsoc hs.2 hz.2 hzsoc hdssoc hdzsoc hjunk
    (by
      rw [← hlamsocs, ← hdzWsocs, ← hUsoc]
      exact hstepU)
  refine ⟨htau', hkap', ⟨?_, ?_⟩, ⟨?_, ?_⟩⟩
  · show ∀ x ∈ lAdd s.lp (lSMul step
      (List.zipWith (· * ·) P.lp_w ds.lp)), 0 < x
    rw [hPw]
    exact hlpmain.1
  · show ∀ b ∈ List.zipWith bAdd s.socs
      ((List.zipWith scaleBlk P.socs ds.socs).map (bSMul step)), _
    rw [hPsocs]
    exact hsocmain.1
  · exact hlpmain.2
  · exact hsocmain.2

/-- C4 counterexample: at the interior iterate s = z = (1) (a single LP
coordinate) with lambda = W z = (1) from a successful updateScalings,
directions ds = dz = 0, tau = kap = 1, dtau = -10^9, dkap = 1, the safe
step bound is tau/(-dtau) = 1e-9, but the final
`std::clamp(alpha, stepmin, stepmax)` (ecos.cpp:1119) raises the returned
step to stepmin = 1e-6, and the accepted update
tau + gamma * step * dtau = -989 is negative: the claimed invariant
tau > 0 does not survive the update step. -/
theorem update_step_tau_negative :
    updateScalings ⟨[(1 : ℝ)], []⟩ ⟨[(1 : ℝ)], []⟩ =
      some (⟨[1], [1], []⟩, ⟨[1], []⟩) ∧
    interiorK (⟨[(1 : ℝ)], []⟩ : CVec ℝ) ∧ (0 : ℝ) < 1 ∧
    lineSearch ⟨[(1 : ℝ)], []⟩ ⟨[0], []⟩ (scaleVec ⟨[1], [1], []⟩ ⟨[0], []⟩)
      1 (-(10 ^ 9)) 1 1 [] = 1 / 10 ^ 6 ∧
    1 + (settings.gamma : ℝ) *
      lineSearch ⟨[(1 : ℝ)], []⟩ ⟨[0], []⟩ (scaleVec ⟨[1], [1], []⟩ ⟨[0], []⟩)
        1 (-(10 ^ 9)) 1 1 [] * (-(10 ^ 9)) < 0 := by
  have hsv : scaleVec (⟨[1], [1], []⟩ : ScalingState)
      (⟨[(0 : ℝ)], []⟩ : CVec ℝ) = ⟨[0], []⟩ := by
    simp [scaleVec]
  have hls : lineSearch ⟨[(1 : ℝ)], []⟩ ⟨[0], []⟩
      (scaleVec ⟨[1], [1], []⟩ ⟨[0], []⟩) 1 (-(10 ^ 9)) 1 1 [] =
      1 / 10 ^ 6 := by
    rw [hsv, lineSearch, lineSearchUnclamped]
    norm_num [lpAlpha, lMin, socLineSearch, settings, max_def, min_def]
  refine ⟨?_, ?_, one_pos, hls, ?_⟩
  · simp [updateScalings, socUpdateList, scaleVec]
  · constructor
    · intro x hx
      simp at hx
      simp [hx]
    · intro b hb
      simp at hb
  · rw [hls]
    norm_num [settings]

/-- Witness for the amended C4 theorem: the LP-only instance s = z = (1),
ds = dz = 0, tau = kap = 1, dtau = -1, dkap = 1, where the unsaturated
line-search value is 1, the saturation proviso stepmin <= 1 holds, and the
updated iterate is interior with positive tau and kappa. -/
theorem accepted_iterate_interior_witness :
    (updateScalings ⟨[(1 : ℝ)], []⟩ ⟨[(1 : ℝ)], []⟩ =
      some (⟨[1], [1], []⟩, ⟨[1], []⟩) ∧
     (settings.stepmin : ℝ) ≤ lineSearchUnclamped ⟨[(1 : ℝ)], []⟩ ⟨[0], []⟩
       (scaleVec ⟨[1], [1], []⟩ ⟨[0], []⟩) 1 (-1) 1 1 []) ∧
    (0 < 1 + (settings.gamma : ℝ) *
      lineSearch ⟨[(1 : ℝ)], []⟩ ⟨[0], []⟩
        (scaleVec ⟨[1], [1], []⟩ ⟨[0], []⟩) 1 (-1) 1 1 [] * (-1) ∧
     0 < 1 + (settings.gamma : ℝ) *
      lineSearch ⟨[(1 : ℝ)], []⟩ ⟨[0], []⟩
        (scaleVec ⟨[1], [1], []⟩ ⟨[0], []⟩) 1 (-1) 1 1 [] * 1 ∧
     interiorK (cvAdd ⟨[(1 : ℝ)], []⟩ (cvSMul ((settings.gamma : ℝ) *
       lineSearch ⟨[(1 : ℝ)], []⟩ ⟨[0], []⟩
         (scaleVec ⟨[1], [1], []⟩ ⟨[0], []⟩) 1 (-1) 1 1 [])
       (scaleVec ⟨[1], [1], []⟩ ⟨[0], []⟩))) ∧
     interiorK (cvAdd ⟨[(1 : ℝ)], []⟩ (cvSMul ((settings.gamma : ℝ) *
       lineSearch ⟨[(1 : ℝ)], []⟩ ⟨[0], []⟩
         (scaleVec ⟨[1], [1], []⟩ ⟨[0], []⟩) 1 (-1) 1 1 []) ⟨[0], []⟩))) := by
  have hup : updateScalings ⟨[(1 : ℝ)], []⟩ ⟨[(1 : ℝ)], []⟩ =
      some (⟨[1], [1], []⟩, ⟨[1], []⟩) := by
    simp [updateScalings, socUpdateList, scaleVec]
  have hint : interiorK (⟨[(1 : ℝ)], []⟩ : CVec ℝ) := by
    constructor
    · intro x hx
      simp at hx
      simp [hx]
    · intro b hb
      simp at hb
  have hclamp : (settings.stepmin : ℝ) ≤ lineSearchUnclamped ⟨[(1 : ℝ)], []⟩
      ⟨[0], []⟩ (scaleVec ⟨[1], [1], []⟩ ⟨[0], []⟩) 1 (-1) 1 1 [] := by
    have hsv : scaleVec (⟨[1], [1], []⟩ : ScalingState)
        (⟨[(0 : ℝ)], []⟩ : CVec ℝ) = ⟨[0], []⟩ := by
      simp [scaleVec]
    rw [hsv, lineSearchUnclamped]
    norm_num [lpAlpha, lMin, socLineSearch, settings]
  exact ⟨⟨hup, hclamp⟩, accepted_iterate_interior ⟨[(1 : ℝ)], []⟩
    ⟨[(1 : ℝ)], []⟩ ⟨[0], []⟩ ⟨[0], []⟩ ⟨[1], [1], []⟩ ⟨[1], []⟩ 1 (-1) 1 1
    [] hup hint hint one_pos one_pos rfl rfl rfl List.Forall₂.nil
    List.Forall₂.nil List.Forall₂.nil rfl hclamp⟩

section Equilibration

variable {p n m : ℕ}

/-- Problem data and accumulated equilibration vectors: the fields
`A, G, b, h, x_equil, A_equil, G_equil` of `ECOSEigen`. -/
structure EquilState (p n m : ℕ) where
  A : Fin p → Fin n → ℝ
  G : Fin m → Fin n → ℝ
  b : Fin p → ℝ
  h : Fin m → ℝ
  x_equil : Fin n → ℝ
  A_equil : Fin p → ℝ
  G_equil : Fin m → ℝ

/-- Row maxima of absolute values of a sparse matrix with zero-initialized
accumulator (`maxRows`, ecos.cpp:104-113). -/
def rowMax (M : Fin p → Fin n → ℝ) : Fin p → ℝ :=
  fun i => Finset.univ.fold max 0 (fun j => |M i j|)

/-- Column maxima of absolute values (`maxCols`, ecos.cpp:115-124). -/
def colMax (M : Fin p → Fin n → ℝ) : Fin n → ℝ :=
  fun j => Finset.univ.fold max 0 (fun i => |M i j|)

/-- SOC collapse of the row scales of G (ecos.cpp:185-192): within each
second-order cone the per-row value is replaced by the total over the
cone's rows.  `grp` encodes the row layout: every LP row is alone in its
group and each SOC's rows share one group, so the group sum leaves LP
rows unchanged and performs the source's segment sum on each SOC. -/
def collapseSoc (grp : Fin m → ℕ) (g : Fin m → ℝ) : Fin m → ℝ :=
  fun i => ∑ j ∈ Finset.univ.filter (fun j => grp j = grp i), g j

/-- Floor-or-square-root of an accumulated scale (ecos.cpp:194-206):
values below 1e-6 in magnitude are floored to 1, others replaced by their
square root. -/
def equilSqrt (t : ℝ) : ℝ := if |t| < 1 / 10 ^ 6 then 1 else Real.sqrt t

/-- One pass of the iterative equilibration loop (ecos.cpp:166-218):
compute the column scales over A and G combined, the row scales of A and
of G (SOC-collapsed), floor-or-sqrt them, divide the rows and columns of
A and G (`equilibrateRows`/`equilibrateCols`), and accumulate the scales
into the equilibration vectors. -/
def equilibrateStep (grp : Fin m → ℕ) (st : EquilState p n m) :
    EquilState p n m :=
  let x_tmp : Fin n → ℝ := fun j => equilSqrt (max (colMax st.A j) (colMax st.G j))
  let A_tmp : Fin p → ℝ := fun i => equilSqrt (rowMax st.A i)
  let G_tmp : Fin m → ℝ := fun i => equilSqrt (collapseSoc grp (rowMax st.G) i)
  { A := fun i j => st.A i j / A_tmp i / x_tmp j
    G := fun i j => st.G i j / G_tmp i / x_tmp j
    b := st.b
    h := st.h
    x_equil := fun j => st.x_equil j * x_tmp j
    A_equil := fun i => st.A_equil i * A_tmp i
    G_equil := fun i => st.G_equil i * G_tmp i }

/-- `ECOSEigen::setEquilibration` (ecos.cpp:150-227): initialize the
equilibration vectors to one, run `equil_iters` passes, then divide b by
A_equil and h by G_equil. -/
def setEquilibration (grp : Fin m → ℕ) (iters : ℕ) (st : EquilState p n m) :
    EquilState p n m :=
  let st1 := (equilibrateStep grp)^[iters]
    { st with x_equil := fun _ => 1, A_equil := fun _ => 1,
              G_equil := fun _ => 1 }
  { st1 with b := fun i => st1.b i / st1.A_equil i,
             h := fun i => st1.h i / st1.G_equil i }

/-- `restore` and `ECOSEigen::unsetEquilibration` (ecos.cpp:229-252):
every entry of A and G is multiplied back by its row and column scale,
and b and h are multiplied by their scales. -/
def unsetEquilibration (st : EquilState p n m) : EquilState p n m :=
  { st with
    A := fun i j => st.A i j * (st.A_equil i * st.x_equil j)
    G := fun i j => st.G i j * (st.G_equil i * st.x_equil j)
    b := fun i => st.b i * st.A_equil i
    h := fun i => st.h i * st.G_equil i }

theorem rowMax_nonneg (M : Fin p → Fin n → ℝ) (i : Fin p) : 0 ≤ rowMax M i := by
  unfold rowMax
  exact (Finset.le_fold_max 0).2 (Or.inl le_rfl)

theorem colMax_nonneg (M : Fin p → Fin n → ℝ) (j : Fin n) : 0 ≤ colMax M j := by
  unfold colMax
  exact (Finset.le_fold_max 0).2 (Or.inl le_rfl)

theorem equilSqrt_pos (t : ℝ) (ht : 0 ≤ t) : 0 < equilSqrt t := by
  unfold equilSqrt
  split_ifs with h
  · exact one_pos
  · rw [abs_of_nonneg ht] at h
    push_neg at h
    exact Real.sqrt_pos.2 (by linarith [pow_pos (by norm_num : (0:ℝ) < 10) 6])

theorem collapseSoc_nonneg (grp : Fin m → ℕ) (g : Fin m → ℝ)
    (hg : ∀ i, 0 ≤ g i) (i : Fin m) : 0 ≤ collapseSoc grp g i :=
  Finset.sum_nonneg (fun j _ => hg j)

theorem equil_iterate_invariant (grp : Fin m → ℕ) (st : EquilState p n m)
    (k : ℕ) :
    let stk := (equilibrateStep grp)^[k]
      { st with x_equil := fun _ => 1, A_equil := fun _ => 1,
                G_equil := fun _ => 1 }
    (∀ j, 0 < stk.x_equil j) ∧ (∀ i, 0 < stk.A_equil i) ∧
    (∀ i, 0 < stk.G_equil i) ∧
    (∀ i j, stk.A i j * (stk.A_equil i * stk.x_equil j) = st.A i j) ∧
    (∀ i j, stk.G i j * (stk.G_equil i * stk.x_equil j) = st.G i j) ∧
    stk.b = st.b ∧ stk.h = st.h := by
  induction k with
  | zero => exact ⟨fun _ => one_pos, fun _ => one_pos, fun _ => one_pos,
      fun i j => by simp, fun i j => by simp, rfl, rfl⟩
  | succ k ih =>
    obtain ⟨hx, hA, hG, hiA, hiG, hb, hh⟩ := ih
    rw [Function.iterate_succ_apply']
    set stk := (equilibrateStep grp)^[k]
      { st with x_equil := fun _ => 1, A_equil := fun _ => 1,
                G_equil := fun _ => 1 } with hstk
    have hxt : ∀ j, 0 < equilSqrt (max (colMax stk.A j) (colMax stk.G j)) :=
      fun j => equilSqrt_pos _ (le_trans (colMax_nonneg _ j) (le_max_left _ _))
    have hAt : ∀ i, 0 < equilSqrt (rowMax stk.A i) :=
      fun i => equilSqrt_pos _ (rowMax_nonneg _ i)
    have hGt : ∀ i, 0 < equilSqrt (collapseSoc grp (rowMax stk.G) i) :=
      fun i => equilSqrt_pos _
        (collapseSoc_nonneg grp _ (rowMax_nonneg _) i)
    refine ⟨fun j => mul_pos (hx j) (hxt j), fun i => mul_pos (hA i) (hAt i),
      fun i => mul_pos (hG i) (hGt i), ?_, ?_, hb, hh⟩
    · intro i j
      show stk.A i j / _ / _ * (stk.A_equil i * _ * (stk.x_equil j * _)) = _
      rw [← hiA i j]
      have h1 : equilSqrt (rowMax stk.A i) ≠ 0 := ne_of_gt (hAt i)
      have h2 : equilSqrt (max (colMax stk.A j) (colMax stk.G j)) ≠ 0 :=
        ne_of_gt (hxt j)
      field_simp
      ring
    · intro i j
      show stk.G i j / _ / _ * (stk.G_equil i * _ * (stk.x_equil j * _)) = _
      rw [← hiG i j]
      have h1 : equilSqrt (collapseSoc grp (rowMax stk.G) i) ≠ 0 :=
        ne_of_gt (hGt i)
      have h2 : equilSqrt (max (colMax stk.A j) (colMax stk.G j)) ≠ 0 :=
        ne_of_gt (hxt j)
      field_simp
      ring

/-- C9: running setEquilibration and then unsetEquilibration restores
A, G, b and h exactly (the nonzero pattern is preserved entrywise and,
under exact arithmetic, so are the values): the accumulated row and
column rescalings are always nonzero and are exactly undone by `restore`
and by the b, h quotient/product pair. -/
theorem equilibration_round_trip (grp : Fin m → ℕ) (iters : ℕ)
    (st : EquilState p n m) :
    (unsetEquilibration (setEquilibration grp iters st)).A = st.A ∧
    (unsetEquilibration (setEquilibration grp iters st)).G = st.G ∧
    (unsetEquilibration (setEquilibration grp iters st)).b = st.b ∧
    (unsetEquilibration (setEquilibration grp iters st)).h = st.h := by
  obtain ⟨hx, hA, hG, hiA, hiG, hb, hh⟩ := equil_iterate_invariant grp st iters
  set stk := (equilibrateStep grp)^[iters]
    { st with x_equil := fun _ => 1, A_equil := fun _ => 1,
              G_equil := fun _ => 1 } with hstk
  refine ⟨?_, ?_, ?_, ?_⟩
  · funext i j
    exact hiA i j
  · funext i j
    exact hiG i j
  · funext i
    show stk.b i / stk.A_equil i * stk.A_equil i = st.b i
    rw [div_mul_cancel₀ _ (ne_of_gt (hA i))]
    exact congrFun hb i
  · funext i
    show stk.h i / stk.G_equil i * stk.G_equil i = st.h i
    rw [div_mul_cancel₀ _ (ne_of_gt (hG i))]
    exact congrFun hh i

end Equilibration

end RealModel

end ECOS
